import Mathlib

/-!
Verification development for the geoip2-csv-converter conversion core
(package convert, file convert.go).

The program streams a CSV whose column 0 is a network in CIDR notation and
rewrites each record, prepending derived columns (CIDR text, first/last
address text, first/last decimal integer, first/last hexadecimal) according
to four boolean flags, and dropping the original network column.

Embedding choices:
* Addresses (Go net/netip.Addr) are a tagged variant of the 4-byte and the
  16-byte family carrying the address value as a natural number below
  2^32 resp. 2^128; byte sequences (AsSlice) are big-endian byte lists.
* Strings under parsing and rendering are lists of characters; the
  record-level API uses String like the Go []string records.
* encoding/csv is modelled at record granularity: the reader yields a list
  of records (each a list of fields) and enforces the field count fixed by
  the header record; the writer collects records. Quoting is below this
  granularity and none of the claims depend on it.
* net/netip parsing (ParsePrefix, ParseAddr, parseIPv4, parseIPv6) and
  rendering (Addr.String, Prefix.String) and netipx.PrefixLastIP are
  dependencies of the repository; they are translated here from their
  sources. Zones ('%' suffixes) are collapsed to parse failure, which is
  the net ParsePrefix behaviour (ParsePrefix rejects every zone).
-/

set_option maxHeartbeats 1000000
set_option maxRecDepth 8192

namespace GeoipConv

/-- Digits of n in base b, most significant first, by structural fuel (any
fuel above n is enough); empty for n = 0. -/
def natToBase (b : Nat) : Nat → Nat → List Nat
  | 0, _ => []
  | fuel + 1, n => if n = 0 then [] else natToBase b fuel (n / b) ++ [n % b]

/-- Base-b rendering of a natural number, most significant digit first,
lowercase letters for digit values 10..15; the value 0 renders as "0".
Models Go strconv.Itoa and math/big Int.String for b = 10 and the netip
hextet appendHex for b = 16. -/
def baseRepr (b n : Nat) : List Char :=
  if n = 0 then ['0'] else (natToBase b (n + 1) n).map Nat.digitChar

/-- Numeric value of a decimal or hexadecimal digit character (0 otherwise). -/
def charVal (c : Char) : Nat :=
  if '0' ≤ c ∧ c ≤ '9' then c.toNat - '0'.toNat
  else if 'a' ≤ c ∧ c ≤ 'f' then c.toNat - 'a'.toNat + 10
  else if 'A' ≤ c ∧ c ≤ 'F' then c.toNat - 'A'.toNat + 10
  else 0

/-- Left-to-right accumulation of digit characters in base b. -/
def parseBaseChars (b : Nat) (cs : List Char) : Nat :=
  cs.foldl (fun acc c => acc * b + charVal c) 0

/-- Big-endian byte list of length k for a value below 256^k. -/
def beBytes : Nat → Nat → List Nat
  | 0, _ => []
  | k + 1, v => beBytes k (v / 256) ++ [v % 256]

/-- Value of a big-endian byte list (math/big Int.SetBytes). -/
def bytesToNat (bs : List Nat) : Nat := bs.foldl (fun acc b => acc * 256 + b) 0

/-- Big-endian 16-bit word list of length k. -/
def beWords : Nat → Nat → List Nat
  | 0, _ => []
  | k + 1, v => beWords k (v / 65536) ++ [v % 65536]

/-- Value of a big-endian 16-bit word list. -/
def wordsToNat (ws : List Nat) : Nat := ws.foldl (fun acc w => acc * 65536 + w) 0

/-- An address of either family, as Go net/netip.Addr: the family is fixed
at construction and the value is the address read as a big-endian unsigned
integer. -/
inductive Addr where
  | v4 (val : Nat)
  | v6 (val : Nat)
deriving DecidableEq, Repr

/-- Address value as a natural number. -/
def Addr.val : Addr → Nat
  | .v4 v => v
  | .v6 v => v

/-- Family bit width: 32 or 128. -/
def Addr.bitWidth : Addr → Nat
  | .v4 _ => 32
  | .v6 _ => 128

/-- Family byte width: 4 or 16. -/
def Addr.byteLen : Addr → Nat
  | .v4 _ => 4
  | .v6 _ => 16

/-- Well-formedness: the value fits the family width. -/
def Addr.wf (a : Addr) : Prop := a.val < 2 ^ a.bitWidth

instance (a : Addr) : Decidable a.wf := by unfold Addr.wf; infer_instance

/-- Big-endian bytes of the address, as netip Addr.AsSlice: 4 bytes for the
4-byte family, 16 for the 16-byte family. -/
def Addr.bytes (a : Addr) : List Nat := beBytes a.byteLen a.val

/-- Dotted-decimal rendering of a 4-byte address value (netip Addr.String,
4-byte case). -/
def v4Chars (v : Nat) : List Char :=
  baseRepr 10 (v / 2 ^ 24 % 256) ++
    ('.' :: (baseRepr 10 (v / 2 ^ 16 % 256) ++
      ('.' :: (baseRepr 10 (v / 2 ^ 8 % 256) ++
        ('.' :: baseRepr 10 (v % 256))))))

/-- Whether a 16-byte value is a 4-in-6 address: upper 80 bits zero and the
next 16 bits all ones (netip Addr.Is4In6). -/
def is4In6 (v : Nat) : Bool := v / 2 ^ 32 == 65535

/-- The eight 16-bit hextets of a 16-byte value, most significant first. -/
def hextets (v : Nat) : List Nat := beWords 8 v

/-- Number of leading zero entries. -/
def leadZeros : List Nat → Nat
  | [] => 0
  | w :: ws => if w = 0 then leadZeros ws + 1 else 0

/-- Scan of netip Addr.String looking for the best zero run: at every
position the run of zeros starting there replaces the best when it has
length at least two and is strictly longer. -/
def zeroRunAux : List Nat → Nat → Nat × Nat → Nat × Nat
  | [], _, best => best
  | w :: ws, i, best =>
    zeroRunAux ws (i + 1)
      (if 2 ≤ leadZeros (w :: ws) ∧ best.2 - best.1 < leadZeros (w :: ws)
       then (i, i + leadZeros (w :: ws)) else best)

/-- Longest (leftmost on ties) run of at least two zero hextets;
(255, 255) when there is none, the sentinel used by netip Addr.String. -/
def zeroRun (ws : List Nat) : Nat × Nat := zeroRunAux ws 0 (255, 255)

/-- Hextet groups joined by ':'. -/
def joinColon : List (List Char) → List Char
  | [] => []
  | [g] => g
  | g :: gs => g ++ ':' :: joinColon gs

/-- Colon-hextet rendering with zero compression, plus the 4-in-6 special
case; models netip Addr.String for the 16-byte family. -/
def v6Chars (v : Nat) : List Char :=
  if is4In6 v then
    ':' :: ':' :: 'f' :: 'f' :: 'f' :: 'f' :: ':' :: v4Chars (v % 2 ^ 32)
  else
    let ws := hextets v
    let p := zeroRun ws
    if p.1 = 255 then joinColon (ws.map (baseRepr 16))
    else
      joinColon ((ws.take p.1).map (baseRepr 16)) ++
        ':' :: ':' :: joinColon ((ws.drop p.2).map (baseRepr 16))

/-- Rendering of an address (netip Addr.String). -/
def addrChars : Addr → List Char
  | .v4 v => v4Chars v
  | .v6 v => v6Chars v

/-- Address rendering as a String. -/
def Addr.str (a : Addr) : String := String.mk (addrChars a)

/-- A network: an address plus a prefix length, as Go net/netip.Prefix. -/
structure Pfx where
  addr : Addr
  bits : Nat
deriving DecidableEq, Repr

/-- Well-formedness: address fits its family and the prefix length is at
most the family bit width. -/
def Pfx.wf (p : Pfx) : Prop := p.addr.wf ∧ p.bits ≤ p.addr.bitWidth

instance (p : Pfx) : Decidable p.wf := by unfold Pfx.wf; infer_instance

/-- Last address of the block: every bit at position at least `bits` from
the most significant end is forced to 1 within the family width. Models
netipx.PrefixLastIP, which sets each host bit in turn and never masks the
base address. -/
def pfxLastIP (p : Pfx) : Addr :=
  match p.addr with
  | .v4 v => .v4 (v ||| (2 ^ (32 - p.bits) - 1))
  | .v6 v => .v6 (v ||| (2 ^ (128 - p.bits) - 1))

/-- CIDR rendering address/bits (netip Prefix.String). -/
def pfxChars (p : Pfx) : List Char := addrChars p.addr ++ '/' :: baseRepr 10 p.bits

/-- CIDR rendering as a String. -/
def Pfx.str (p : Pfx) : String := String.mk (pfxChars p)

/-- Character class used by the hex scan of parseIPv6. -/
def isHexDigitGo (c : Char) : Bool :=
  ('0' ≤ c && c ≤ '9') || ('a' ≤ c && c ≤ 'f') || ('A' ≤ c && c ≤ 'F')

/-- Field loop of netip parseIPv4Fields over the characters: current octet
value, number of digits in the current octet, number of completed octets,
completed octets in reverse. Rejects octets above 255, octets with a
leading zero, empty fields and a wrong number of fields. -/
def v4Fields : List Char → Nat → Nat → Nat → List Nat → Option (List Nat)
  | [], val, _, pos, acc =>
    if pos < 3 then none else some (acc.reverse ++ [val])
  | c :: rest, val, digLen, pos, acc =>
    if c.isDigit then
      if digLen = 1 ∧ val = 0 then none
      else
        if 255 < val * 10 + (c.toNat - '0'.toNat) then none
        else v4Fields rest (val * 10 + (c.toNat - '0'.toNat)) (digLen + 1) pos acc
    else if c = '.' then
      if digLen = 0 ∨ rest = [] then none
      else if pos = 3 then none
      else v4Fields rest 0 0 (pos + 1) (val :: acc)
    else none

/-- Dotted-decimal parse (netip parseIPv4) giving the 4-byte value. -/
def parseIPv4 (s : List Char) : Option Nat :=
  (v4Fields s 0 0 0 []).map bytesToNat

/-- Value accumulated from hex digit characters. -/
def hexAcc (cs : List Char) : Nat := cs.foldl (fun acc c => acc * 16 + charVal c) 0

/-- Main loop of netip parseIPv6 over the remaining characters; acc is the
byte buffer built so far (Go ip[0:i]) and ell the byte index where "::"
was seen. Returns the bytes, the ellipsis position and the unconsumed
remainder. The fuel only bounds the iteration count; the Go loop runs
while i < 16 and i grows by at least two every pass. -/
def v6Loop : Nat → List Char → List Nat → Option Nat → Option (List Nat × Option Nat × List Char)
  | 0, _, _, _ => none
  | fuel + 1, s, acc, ell =>
    if 16 ≤ acc.length then some (acc, ell, s)
    else
      let ds := s.takeWhile isHexDigitGo
      let rest := s.dropWhile isHexDigitGo
      if ds.length = 0 then none
      else if 4 < ds.length then none
      else
        match rest with
        | '.' :: _ =>
          if ell = none ∧ acc.length ≠ 12 then none
          else if 16 < acc.length + 4 then none
          else
            match parseIPv4 s with
            | none => none
            | some w => some (acc ++ beBytes 4 w, ell, [])
        | _ =>
          match rest with
          | [] => some (acc ++ [hexAcc ds / 256, hexAcc ds % 256], ell, [])
          | ':' :: rest2 =>
            match rest2 with
            | [] => none
            | ':' :: rest3 =>
              if ell.isSome then none
              else if rest3 = [] then
                some (acc ++ [hexAcc ds / 256, hexAcc ds % 256],
                  some (acc ++ [hexAcc ds / 256, hexAcc ds % 256]).length, [])
              else
                v6Loop fuel rest3 (acc ++ [hexAcc ds / 256, hexAcc ds % 256])
                  (some (acc ++ [hexAcc ds / 256, hexAcc ds % 256]).length)
            | _ => v6Loop fuel rest2 (acc ++ [hexAcc ds / 256, hexAcc ds % 256]) ell
          | _ => none

/-- End of netip parseIPv6: the whole string must be consumed; with fewer
than 16 bytes an ellipsis must be present and expands to zero bytes at its
position; with all 16 bytes present an ellipsis is rejected. -/
def v6Finish : Option (List Nat × Option Nat × List Char) → Option Nat
  | none => none
  | some (acc, ell, s) =>
    if s ≠ [] then none
    else if acc.length < 16 then
      match ell with
      | none => none
      | some p =>
        some (bytesToNat (acc.take p ++ List.replicate (16 - acc.length) 0 ++ acc.drop p))
    else if ell.isSome then none
    else some (bytesToNat acc)

/-- Colon-hextet parse (netip parseIPv6) giving the 16-byte value. A '%'
zone is collapsed to failure, which is what ParsePrefix makes of every
zone. -/
def parseIPv6 (s : List Char) : Option Nat :=
  if s.any (fun c => c = '%') then none
  else if 2 ≤ s.length ∧ s.take 2 = [':', ':'] then
    if s.drop 2 = [] then some 0
    else v6Finish (v6Loop 17 (s.drop 2) [] (some 0))
  else v6Finish (v6Loop 17 s [] none)

/-- First of '.', ':', '%' in the string, the dispatch of netip ParseAddr. -/
def firstSpecial : List Char → Option Char
  | [] => none
  | c :: rest => if c = '.' ∨ c = ':' ∨ c = '%' then some c else firstSpecial rest

/-- Go net/netip ParseAddr: dispatch on the first special character. -/
def parseAddrGo (s : List Char) : Option Addr :=
  match firstSpecial s with
  | some '.' => (parseIPv4 s).map Addr.v4
  | some ':' => (parseIPv6 s).map Addr.v6
  | _ => none

/-- Index of the last occurrence of a character. -/
def lastIdxOf (c : Char) : List Char → Option Nat
  | [] => none
  | x :: xs =>
    match lastIdxOf c xs with
    | some i => some (i + 1)
    | none => if x = c then some 0 else none

/-- Go strconv.Atoi restricted to its use in ParsePrefix: an optional
leading plus sign then at least one decimal digit; a minus sign yields a
negative value that ParsePrefix rejects as out of range, so both are
collapsed to failure here. -/
def atoiNonNeg (s : List Char) : Option Nat :=
  let ds := match s with
    | '+' :: rest => rest
    | _ => s
  if ds ≠ [] ∧ ds.all Char.isDigit then some (parseBaseChars 10 ds) else none

/-- Body of ParsePrefix once the position of the last '/' is known: parse
the address before it, the decimal prefix length after it, and bound the
length by the family bit width. The base address is stored as given; host
bits are not masked. -/
def parsePfxAt (s : List Char) (i : Nat) : Option Pfx :=
  match parseAddrGo (s.take i) with
  | none => none
  | some ip =>
    match atoiNonNeg (s.drop (i + 1)) with
    | none => none
    | some bits => if ip.bitWidth < bits then none else some ⟨ip, bits⟩

/-- Go net/netip ParsePrefix: fail without a '/', otherwise split at the
last '/'. -/
def parsePfx (s : List Char) : Option Pfx :=
  match lastIdxOf '/' s with
  | none => none
  | some i => parsePfxAt s i

/-- ParsePrefix on a String. -/
def parsePfxStr (s : String) : Option Pfx := parsePfx s.data

/-- Header columns of the cidr flag. -/
def cidrHeader (orig : List String) : List String := "network" :: orig

/-- Line columns of the cidr flag: the network in CIDR notation. -/
def cidrLine (network : Pfx) (orig : List String) : List String := network.str :: orig

/-- Header columns of the ipRange flag. -/
def rangeHeader (orig : List String) : List String :=
  "network_start_ip" :: "network_last_ip" :: orig

/-- Line columns of the ipRange flag: the first and last address as text. -/
def rangeLine (network : Pfx) (orig : List String) : List String :=
  network.addr.str :: (pfxLastIP network).str :: orig

/-- Header columns of the intRange flag. -/
def intRangeHeader (orig : List String) : List String :=
  "network_start_integer" :: "network_last_integer" :: orig

/-- Decimal rendering of the big-endian integer built from the address
bytes: the big.Int SetBytes plus String steps of intRangeLine. -/
def toDecimal (a : Addr) : List Char := baseRepr 10 (bytesToNat a.bytes)

/-- Line columns of the intRange flag: first and last address as decimal
integers. -/
def intRangeLine (network : Pfx) (orig : List String) : List String :=
  String.mk (toDecimal network.addr) :: String.mk (toDecimal (pfxLastIP network)) :: orig

/-- Header columns of the hexRange flag. -/
def hexRangeHeader (orig : List String) : List String :=
  "network_start_hex" :: "network_last_hex" :: orig

/-- Two lowercase hex digits per byte (Go encoding/hex.EncodeToString). -/
def encodeToString (bs : List Nat) : List Char :=
  bs.foldr (fun b acc => Nat.digitChar (b / 16) :: Nat.digitChar (b % 16) :: acc) []

/-- Go strings.TrimPrefix: drops one leading occurrence of pat if present. -/
def trimLeading (pat s : List Char) : List Char :=
  if pat.isPrefixOf s then s.drop pat.length else s

/-- The toHex of convert.go: hex-encode the address bytes and strip one
leading "0" with strings.TrimPrefix. -/
def toHex (a : Addr) : List Char := trimLeading ['0'] (encodeToString a.bytes)

/-- Line columns of the hexRange flag: first and last address in hex. -/
def hexRangeLine (network : Pfx) (orig : List String) : List String :=
  String.mk (toHex network.addr) :: String.mk (toHex (pfxLastIP network)) :: orig

/-- Composition of header transforms (second applied after first). -/
def addHeaderFunc (first second : List String → List String) : List String → List String :=
  fun header => second (first header)

/-- Composition of line transforms (second applied after first). -/
def addLineFunc (first second : Pfx → List String → List String) :
    Pfx → List String → List String :=
  fun network line => second network (first network line)

/-- The header transform Convert builds: starting from the identity, wrap
hexRange, intRange, ipRange, cidr in this order when their flag is set. -/
def makeHeaderF (cidr ipRange intRange hexRange : Bool) : List String → List String :=
  let mh := fun (orig : List String) => orig
  let mh := if hexRange then addHeaderFunc mh hexRangeHeader else mh
  let mh := if intRange then addHeaderFunc mh intRangeHeader else mh
  let mh := if ipRange then addHeaderFunc mh rangeHeader else mh
  if cidr then addHeaderFunc mh cidrHeader else mh

/-- The line transform Convert builds, wrapped in the same order. -/
def makeLineF (cidr ipRange intRange hexRange : Bool) : Pfx → List String → List String :=
  let ml := fun (_ : Pfx) (orig : List String) => orig
  let ml := if hexRange then addLineFunc ml hexRangeLine else ml
  let ml := if intRange then addLineFunc ml intRangeLine else ml
  let ml := if ipRange then addLineFunc ml rangeLine else ml
  if cidr then addLineFunc ml cidrLine else ml

/-- Errors of the conversion, by source: failing to read a header record,
a record whose field count differs from the header's (encoding/csv
ErrFieldCount, surfaced by convert as a read error), and a column-0 value
ParsePrefix rejects (the error carries the offending text). -/
inductive ConvError where
  | readHeader
  | fieldCount
  | parseNetwork (text : String)
deriving DecidableEq, Repr

/-- Record loop of convert: encoding/csv fixes the expected field count
from the header record and fails any later record with a different count;
then column 0 is parsed and the transformed record emitted. On an error
the records already written stay in the first component and the error is
reported; nothing is emitted for the failing record. -/
def convertLoop (makeLine : Pfx → List String → List String) (fc : Nat) :
    List (List String) → List (List String) × Option ConvError
  | [] => ([], none)
  | record :: rest =>
    if record.length ≠ fc then ([], some ConvError.fieldCount)
    else
      match parsePfxStr (record.headD "") with
      | none => ([], some (ConvError.parseNetwork (record.headD "")))
      | some p =>
        let r := convertLoop makeLine fc rest
        (makeLine p (record.drop 1) :: r.1, r.2)

/-- Record-level model of the inner convert: read the header, emit the
transformed header (with column 0 dropped), then run the record loop. -/
def convertRun (makeHeader : List String → List String)
    (makeLine : Pfx → List String → List String)
    (records : List (List String)) : List (List String) × Option ConvError :=
  match records with
  | [] => ([], some ConvError.readHeader)
  | header :: rest =>
    let r := convertLoop makeLine header.length rest
    (makeHeader (header.drop 1) :: r.1, r.2)

/-- Convert with the four representation flags, composing the header and
line transforms exactly as the source does. -/
def Convert (cidr ipRange intRange hexRange : Bool) (records : List (List String)) :
    List (List String) × Option ConvError :=
  convertRun (makeHeaderF cidr ipRange intRange hexRange)
    (makeLineF cidr ipRange intRange hexRange) records

/-- Specification-side description of the derived header columns in the
fixed left-to-right order: cidr group, address-range group, integer-range
group, hex-range group. -/
def derivedHeaderCols (cidr ipRange intRange hexRange : Bool) : List String :=
  (if cidr then ["network"] else []) ++
    (if ipRange then ["network_start_ip", "network_last_ip"] else []) ++
    (if intRange then ["network_start_integer", "network_last_integer"] else []) ++
    (if hexRange then ["network_start_hex", "network_last_hex"] else [])

/-- Specification-side description of the derived data columns for one
parsed network, in the same fixed order. -/
def derivedCols (cidr ipRange intRange hexRange : Bool) (p : Pfx) : List String :=
  (if cidr then [p.str] else []) ++
    (if ipRange then [p.addr.str, (pfxLastIP p).str] else []) ++
    (if intRange then [String.mk (toDecimal p.addr), String.mk (toDecimal (pfxLastIP p))] else []) ++
    (if hexRange then [String.mk (toHex p.addr), String.mk (toHex (pfxLastIP p))] else [])

/-- Modelled from the spec: rendering of the address bytes as a single
unsigned big-endian integer in lowercase base 16 with no leading zero
digits and the value 0 rendered as "0" (the toHex the specification
describes, used to compare with the toHex of the code). -/
def specHexRepr (a : Addr) : List Char := baseRepr 16 (bytesToNat a.bytes)

/-- Lowercase hexadecimal digit character class. -/
def isLowerHexChar (c : Char) : Bool :=
  ('0' ≤ c && c ≤ '9') || ('a' ≤ c && c ≤ 'f')

/-- Bytes of a hextet list, two bytes per word, most significant first
(shape of the byte buffer parseIPv6 builds from its hex groups). -/
def wordsBytes (ws : List Nat) : List Nat :=
  ws.foldr (fun w acc => w / 256 :: w % 256 :: acc) []

/-! ## Positional arithmetic -/

theorem foldl_mul_add (b : Nat) (cs : List Nat) (acc : Nat) :
    cs.foldl (fun a d => a * b + d) acc =
      acc * b ^ cs.length + cs.foldl (fun a d => a * b + d) 0 := by
  induction cs generalizing acc with
  | nil => simp
  | cons c cs ih =>
    simp only [List.foldl_cons, List.length_cons]
    rw [ih (acc * b + c), ih (0 * b + c)]
    ring

theorem foldl_mul_add_char (b : Nat) (cs : List Char) (acc : Nat) :
    cs.foldl (fun a c => a * b + charVal c) acc =
      acc * b ^ cs.length + cs.foldl (fun a c => a * b + charVal c) 0 := by
  induction cs generalizing acc with
  | nil => simp
  | cons c cs ih =>
    simp only [List.foldl_cons, List.length_cons]
    rw [ih (acc * b + charVal c), ih (0 * b + charVal c)]
    ring

theorem bytesToNat_append_single (bs : List Nat) (d : Nat) :
    bytesToNat (bs ++ [d]) = bytesToNat bs * 256 + d := by
  simp [bytesToNat, List.foldl_append]

theorem wordsToNat_append_single (ws : List Nat) (d : Nat) :
    wordsToNat (ws ++ [d]) = wordsToNat ws * 65536 + d := by
  simp [wordsToNat, List.foldl_append]

theorem beBytes_length (k v : Nat) : (beBytes k v).length = k := by
  induction k generalizing v with
  | zero => rfl
  | succ k ih => simp [beBytes, ih]

theorem beWords_length (k v : Nat) : (beWords k v).length = k := by
  induction k generalizing v with
  | zero => rfl
  | succ k ih => simp [beWords, ih]

theorem beBytes_lt (k v : Nat) : ∀ x ∈ beBytes k v, x < 256 := by
  induction k generalizing v with
  | zero => intro x hx; simp [beBytes] at hx
  | succ k ih =>
    intro x hx
    simp only [beBytes, List.mem_append, List.mem_singleton] at hx
    rcases hx with hx | hx
    · exact ih _ x hx
    · omega

theorem beWords_lt (k v : Nat) : ∀ x ∈ beWords k v, x < 65536 := by
  induction k generalizing v with
  | zero => intro x hx; simp [beWords] at hx
  | succ k ih =>
    intro x hx
    simp only [beWords, List.mem_append, List.mem_singleton] at hx
    rcases hx with hx | hx
    · exact ih _ x hx
    · omega

theorem bytesToNat_beBytes (k v : Nat) (h : v < 256 ^ k) :
    bytesToNat (beBytes k v) = v := by
  induction k generalizing v with
  | zero => simp at h; simp [beBytes, bytesToNat, h]
  | succ k ih =>
    have hdiv : v / 256 < 256 ^ k := by
      rw [Nat.div_lt_iff_lt_mul (by norm_num)]
      calc v < 256 ^ (k + 1) := h
        _ = 256 ^ k * 256 := by ring
    rw [beBytes, bytesToNat_append_single, ih _ hdiv]
    omega

theorem wordsToNat_beWords (k v : Nat) (h : v < 65536 ^ k) :
    wordsToNat (beWords k v) = v := by
  induction k generalizing v with
  | zero => simp at h; simp [beWords, wordsToNat, h]
  | succ k ih =>
    have hdiv : v / 65536 < 65536 ^ k := by
      rw [Nat.div_lt_iff_lt_mul (by norm_num)]
      calc v < 65536 ^ (k + 1) := h
        _ = 65536 ^ k * 65536 := by ring
    rw [beWords, wordsToNat_append_single, ih _ hdiv]
    omega

theorem wordsBytes_append (xs ys : List Nat) :
    wordsBytes (xs ++ ys) = wordsBytes xs ++ wordsBytes ys := by
  induction xs with
  | nil => rfl
  | cons x xs ih =>
    show x / 256 :: x % 256 :: wordsBytes (xs ++ ys) = _
    rw [ih]
    rfl

theorem wordsBytes_replicate_zero (k : Nat) :
    wordsBytes (List.replicate k 0) = List.replicate (2 * k) 0 := by
  induction k with
  | zero => rfl
  | succ k ih =>
    rw [List.replicate_succ]
    show 0 / 256 :: 0 % 256 :: wordsBytes (List.replicate k 0) = _
    rw [ih]
    have h2 : 2 * (k + 1) = 2 * k + 2 := by ring
    rw [h2]
    rfl

theorem wordsBytes_length (ws : List Nat) : (wordsBytes ws).length = 2 * ws.length := by
  induction ws with
  | nil => rfl
  | cons w ws ih =>
    show (w / 256 :: w % 256 :: wordsBytes ws).length = _
    simp only [List.length_cons, ih, List.length_cons]
    omega

theorem bytesToNat_wordsBytes (ws : List Nat) :
    bytesToNat (wordsBytes ws) = wordsToNat ws := by
  induction ws with
  | nil => rfl
  | cons w ws ih =>
    show bytesToNat (w / 256 :: w % 256 :: wordsBytes ws) = wordsToNat (w :: ws)
    have ih' : List.foldl (fun a d => a * 256 + d) 0 (wordsBytes ws) =
        List.foldl (fun a d => a * 65536 + d) 0 ws := ih
    simp only [bytesToNat, wordsToNat, List.foldl_cons]
    have h1 : (0 * 256 + w / 256) * 256 + w % 256 = w := by omega
    have h2 : 0 * 65536 + w = w := by omega
    rw [h1, h2, foldl_mul_add 256 (wordsBytes ws) w, foldl_mul_add 65536 ws w,
      wordsBytes_length ws]
    have hp : (256 : Nat) ^ (2 * ws.length) = 65536 ^ ws.length := by
      rw [pow_mul]
      norm_num
    rw [hp, ih']

/-! ## Digit strings -/

theorem natToBase_eq_digits_reverse (b : Nat) (hb : 2 ≤ b) :
    ∀ fuel n, n < fuel → natToBase b fuel n = (Nat.digits b n).reverse := by
  intro fuel
  induction fuel with
  | zero => omega
  | succ fuel ih =>
    intro n h
    by_cases hn : n = 0
    · simp [natToBase, hn]
    · have hdiv : n / b < n := Nat.div_lt_self (Nat.pos_of_ne_zero hn) (by omega)
      rw [natToBase, if_neg hn,
        Nat.digits_def' (by omega : 1 < b) (Nat.pos_of_ne_zero hn),
        List.reverse_cons, ih (n / b) (by omega)]

theorem foldr_eq_ofDigits (b : Nat) (L : List Nat) :
    L.foldr (fun d a => a * b + d) 0 = Nat.ofDigits b L := by
  induction L with
  | nil => simp [Nat.ofDigits]
  | cons d L ih => simp [Nat.ofDigits, ih]; ring

theorem charVal_digitChar : ∀ d, d < 16 → charVal (Nat.digitChar d) = d := by decide

theorem digitChar_isDigit : ∀ d, d < 10 → (Nat.digitChar d).isDigit = true := by decide

theorem digitChar_isHexGo : ∀ d, d < 16 → isHexDigitGo (Nat.digitChar d) = true := by decide

theorem digitChar_isLowerHex : ∀ d, d < 16 → isLowerHexChar (Nat.digitChar d) = true := by decide

theorem digitChar_not_special : ∀ d, d < 16 →
    ¬(Nat.digitChar d = '.' ∨ Nat.digitChar d = ':' ∨ Nat.digitChar d = '%') := by decide

theorem digitChar_toNat (d : Nat) (hd : d < 10) :
    (Nat.digitChar d).toNat - '0'.toNat = d := by
  interval_cases d <;> decide

theorem foldl_map_digitChar (b : Nat) (hb : b ≤ 16) (ds : List Nat)
    (hds : ∀ d ∈ ds, d < b) (acc : Nat) :
    List.foldl (fun a c => a * b + charVal c) acc (ds.map Nat.digitChar) =
      List.foldl (fun a d => a * b + d) acc ds := by
  induction ds generalizing acc with
  | nil => rfl
  | cons d ds ih =>
    simp only [List.map_cons, List.foldl_cons]
    rw [charVal_digitChar d (by have := hds d (by simp); omega)]
    exact ih (fun x hx => hds x (by simp [hx])) _

theorem mem_baseRepr (b n : Nat) (hb : 2 ≤ b) :
    ∀ c ∈ baseRepr b n, ∃ d, d < b ∧ c = Nat.digitChar d := by
  intro c hc
  by_cases hn : n = 0
  · simp [baseRepr, hn] at hc
    exact ⟨0, by omega, by simp [hc, Nat.digitChar]⟩
  · rw [baseRepr, if_neg hn, natToBase_eq_digits_reverse b hb _ n (Nat.lt_succ_self n)] at hc
    rcases List.mem_map.mp hc with ⟨d, hd, rfl⟩
    exact ⟨d, Nat.digits_lt_base (by omega) (List.mem_reverse.mp hd), rfl⟩

theorem baseRepr_ne_nil (b n : Nat) : baseRepr b n ≠ [] := by
  by_cases hn : n = 0
  · simp [baseRepr, hn]
  · rw [baseRepr, if_neg hn]
    simp only [ne_eq, List.map_eq_nil_iff, natToBase]
    split
    · omega
    · simp

theorem parseBaseChars_baseRepr (b n : Nat) (hb : 2 ≤ b) (h16 : b ≤ 16) :
    parseBaseChars b (baseRepr b n) = n := by
  by_cases hn : n = 0
  · have h0 : charVal '0' = 0 := by decide
    simp [baseRepr, hn, parseBaseChars, h0]
  · rw [baseRepr, if_neg hn, natToBase_eq_digits_reverse b hb _ n (Nat.lt_succ_self n)]
    rw [parseBaseChars, foldl_map_digitChar b h16 _
      (fun d hd => Nat.digits_lt_base (by omega) (List.mem_reverse.mp hd)) 0]
    rw [List.foldl_reverse]
    have : (Nat.digits b n).foldr (fun y x => x * b + y) 0 =
        (Nat.digits b n).foldr (fun d a => a * b + d) 0 := rfl
    rw [this, foldr_eq_ofDigits, Nat.ofDigits_digits]

theorem baseRepr_length_le (b n k : Nat) (hb : 2 ≤ b) (hk : 1 ≤ k) (h : n < b ^ k) :
    (baseRepr b n).length ≤ k := by
  by_cases hn : n = 0
  · simp [baseRepr, hn]; omega
  · rw [baseRepr, if_neg hn, natToBase_eq_digits_reverse b hb _ n (Nat.lt_succ_self n)]
    rw [List.length_map, List.length_reverse]
    have hle : b ^ (Nat.digits b n).length ≤ b * n :=
      Nat.base_pow_length_digits_le b n (by omega) hn
    have hlt : b * n < b ^ (k + 1) := by
      rw [pow_succ, mul_comm]
      exact Nat.mul_lt_mul_of_lt_of_le h (le_refl b) (by omega)
    have := lt_of_le_of_lt hle hlt
    have := (Nat.pow_lt_pow_iff_right (by omega : 1 < b)).mp this
    omega

/-! ## Dotted-decimal parse of a rendered address -/

theorem v4Fields_digits_safe (ds : List Nat) (rest : List Char)
    (val digLen pos : Nat) (acc : List Nat)
    (hds : ∀ d ∈ ds, d < 10) (hval : 1 ≤ val)
    (hbound : val * 10 ^ ds.length + ds.foldl (fun a d => a * 10 + d) 0 ≤ 255) :
    v4Fields (ds.map Nat.digitChar ++ rest) val digLen pos acc =
      v4Fields rest (ds.foldl (fun a d => a * 10 + d) val) (digLen + ds.length) pos acc := by
  induction ds generalizing val digLen with
  | nil => simp
  | cons d ds ih =>
    have hd : d < 10 := hds d (by simp)
    simp only [List.map_cons, List.cons_append, List.foldl_cons, List.length_cons]
    rw [v4Fields]
    rw [if_pos (digitChar_isDigit d hd)]
    have hnz : ¬(digLen = 1 ∧ val = 0) := by omega
    rw [if_neg hnz, digitChar_toNat d hd]
    have harith : (val * 10 + d) * 10 ^ ds.length + ds.foldl (fun a d => a * 10 + d) 0 =
        val * 10 ^ (ds.length + 1) + List.foldl (fun a d => a * 10 + d) (0 * 10 + d) ds := by
      rw [foldl_mul_add 10 ds (0 * 10 + d)]
      ring
    have hb' : (val * 10 + d) * 10 ^ ds.length + ds.foldl (fun a d => a * 10 + d) 0 ≤ 255 := by
      rw [harith]
      simpa using hbound
    have hval' : val * 10 + d ≤ 255 := by
      have h1 : 1 ≤ 10 ^ ds.length := Nat.one_le_pow _ _ (by omega)
      nlinarith [Nat.zero_le (ds.foldl (fun a d => a * 10 + d) 0)]
    rw [if_neg (by omega : ¬255 < val * 10 + d)]
    rw [ih (val * 10 + d) (digLen + 1) (fun x hx => hds x (by simp [hx])) (by omega) hb']
    have : digLen + 1 + ds.length = digLen + (ds.length + 1) := by omega
    rw [this]

theorem baseRepr_pos_decomp (b n : Nat) (hb : 2 ≤ b) (hn : n ≠ 0) :
    ∃ d ds, baseRepr b n = Nat.digitChar d :: ds.map Nat.digitChar ∧
      0 < d ∧ d < b ∧ (∀ x ∈ ds, x < b) ∧
      List.foldl (fun a x => a * b + x) d ds = n := by
  have hrepr : baseRepr b n = ((Nat.digits b n).reverse).map Nat.digitChar := by
    rw [baseRepr, if_neg hn, natToBase_eq_digits_reverse b hb _ n (Nat.lt_succ_self n)]
  have hne : Nat.digits b n ≠ [] := Nat.digits_ne_nil_iff_ne_zero.mpr hn
  have hrevne : (Nat.digits b n).reverse ≠ [] := by simpa using hne
  obtain ⟨d, ds, hds⟩ : ∃ d ds, (Nat.digits b n).reverse = d :: ds := by
    cases hL : (Nat.digits b n).reverse with
    | nil => exact absurd hL hrevne
    | cons d ds => exact ⟨d, ds, rfl⟩
  have hmem : ∀ x ∈ (Nat.digits b n).reverse, x < b := fun x hx =>
    Nat.digits_lt_base (by omega) (List.mem_reverse.mp hx)
  have hdlt : d < b := hmem d (by rw [hds]; simp)
  have hdpos : 0 < d := by
    have h1 : (Nat.digits b n).reverse.head? = some d := by rw [hds]; rfl
    rw [List.head?_reverse, List.getLast?_eq_getLast _ hne] at h1
    have h2 := Nat.getLast_digit_ne_zero b hn
    have h3 : (Nat.digits b n).getLast hne = d := by
      injection h1
    omega
  have hfold : List.foldl (fun a x => a * b + x) d ds = n := by
    have h0 : List.foldl (fun a x => a * b + x) 0 ((Nat.digits b n).reverse) = n := by
      rw [List.foldl_reverse]
      have : (Nat.digits b n).foldr (fun y x => x * b + y) 0 =
          (Nat.digits b n).foldr (fun x a => a * b + x) 0 := rfl
      rw [this, foldr_eq_ofDigits, Nat.ofDigits_digits]
    rw [hds] at h0
    simpa using h0
  refine ⟨d, ds, ?_, hdpos, hdlt, fun x hx => hmem x (by rw [hds]; simp [hx]), hfold⟩
  rw [hrepr, hds]
  simp

theorem v4Fields_octet (o : Nat) (ho : o ≤ 255) (rest : List Char) (pos : Nat)
    (acc : List Nat) :
    v4Fields (baseRepr 10 o ++ rest) 0 0 pos acc =
      v4Fields rest o (baseRepr 10 o).length pos acc := by
  by_cases h0 : o = 0
  · subst h0
    show v4Fields ('0' :: rest) 0 0 pos acc = v4Fields rest 0 (baseRepr 10 0).length pos acc
    rw [v4Fields, if_pos (by decide : ('0' : Char).isDigit = true),
      if_neg (by omega : ¬(0 = 1 ∧ 0 = 0))]
    have hz : (0 : Nat) * 10 + ('0'.toNat - '0'.toNat) = 0 := by decide
    rw [hz, if_neg (by omega : ¬255 < 0)]
    rfl
  · obtain ⟨d, ds, hrepr, hdpos, hdlt, hmem, hfold⟩ := baseRepr_pos_decomp 10 o (by omega) h0
    rw [hrepr]
    show v4Fields (Nat.digitChar d :: (ds.map Nat.digitChar ++ rest)) 0 0 pos acc = _
    rw [v4Fields, if_pos (digitChar_isDigit d (by omega)),
      if_neg (by omega : ¬(0 = 1 ∧ 0 = 0)), digitChar_toNat d (by omega)]
    have hd255 : 0 * 10 + d ≤ 255 := by omega
    rw [if_neg (by omega : ¬255 < 0 * 10 + d)]
    have hbound : (0 * 10 + d) * 10 ^ ds.length + ds.foldl (fun a x => a * 10 + x) 0 ≤ 255 := by
      have := foldl_mul_add 10 ds d
      rw [hfold] at this
      simp only [zero_mul, zero_add]
      omega
    rw [v4Fields_digits_safe ds rest (0 * 10 + d) (0 + 1) pos acc hmem (by omega) hbound]
    have h1 : List.foldl (fun a x => a * 10 + x) (0 * 10 + d) ds = o := by
      simpa using hfold
    rw [h1]
    have hlen : 0 + 1 + ds.length = (Nat.digitChar d :: List.map Nat.digitChar ds).length := by
      simp only [List.length_cons, List.length_map]
      omega
    rw [hlen]

theorem v4Fields_dot (rest2 : List Char) (hne : rest2 ≠ []) (val digLen pos : Nat)
    (acc : List Nat) (hdl : digLen ≠ 0) (hpos : pos ≠ 3) :
    v4Fields ('.' :: rest2) val digLen pos acc = v4Fields rest2 0 0 (pos + 1) (val :: acc) := by
  rw [v4Fields, if_neg (by decide : ¬('.' : Char).isDigit = true),
    if_pos (rfl : ('.' : Char) = '.'), if_neg (by simp [hdl, hne]), if_neg hpos]

theorem baseRepr_length_pos (b n : Nat) : (baseRepr b n).length ≠ 0 := by
  have := baseRepr_ne_nil b n
  simpa [List.length_eq_zero] using this

theorem baseRepr_append_ne_nil (b n : Nat) (rest : List Char) :
    baseRepr b n ++ rest ≠ [] := by
  intro h
  exact baseRepr_ne_nil b n (List.append_eq_nil.mp h).1

theorem parseIPv4_v4Chars (v : Nat) (hv : v < 2 ^ 32) : parseIPv4 (v4Chars v) = some v := by
  have hm3 : v / 2 ^ 24 % 256 ≤ 255 := by omega
  have hm2 : v / 2 ^ 16 % 256 ≤ 255 := by omega
  have hm1 : v / 2 ^ 8 % 256 ≤ 255 := by omega
  have hm0 : v % 256 ≤ 255 := by omega
  rw [parseIPv4, v4Chars]
  rw [v4Fields_octet _ hm3 _ 0 []]
  rw [v4Fields_dot _ (baseRepr_append_ne_nil _ _ _) _ _ 0 []
    (baseRepr_length_pos 10 _) (by omega)]
  rw [v4Fields_octet _ hm2 _ 1 _]
  rw [v4Fields_dot _ (baseRepr_append_ne_nil _ _ _) _ _ 1 _
    (baseRepr_length_pos 10 _) (by omega)]
  rw [v4Fields_octet _ hm1 _ 2 _]
  rw [v4Fields_dot _ (baseRepr_ne_nil 10 _) _ _ 2 _
    (baseRepr_length_pos 10 _) (by omega)]
  rw [show baseRepr 10 (v % 256) = baseRepr 10 (v % 256) ++ [] from (List.append_nil _).symm]
  rw [v4Fields_octet _ hm0 _ _ _]
  rw [v4Fields]
  rw [if_neg (by omega : ¬2 + 1 < 3)]
  have hbytes : bytesToNat
      ([v / 2 ^ 8 % 256, v / 2 ^ 16 % 256, v / 2 ^ 24 % 256].reverse ++ [v % 256]) = v := by
    show bytesToNat [v / 2 ^ 24 % 256, v / 2 ^ 16 % 256, v / 2 ^ 8 % 256, v % 256] = v
    unfold bytesToNat
    simp only [List.foldl_cons, List.foldl_nil]
    have e3 : (2 : Nat) ^ 24 = 16777216 := by norm_num
    have e2 : (2 : Nat) ^ 16 = 65536 := by norm_num
    have e1 : (2 : Nat) ^ 8 = 256 := by norm_num
    have e0 : (2 : Nat) ^ 32 = 4294967296 := by norm_num
    rw [e3, e2, e1]
    rw [e0] at hv
    omega
  exact congrArg some hbytes

theorem firstSpecial_append (xs rest : List Char)
    (h : ∀ c ∈ xs, ¬(c = '.' ∨ c = ':' ∨ c = '%')) :
    firstSpecial (xs ++ rest) = firstSpecial rest := by
  induction xs with
  | nil => rfl
  | cons c cs ih =>
    rw [List.cons_append, firstSpecial, if_neg (h c (by simp))]
    exact ih (fun x hx => h x (by simp [hx]))

theorem baseRepr_not_special (b n : Nat) (hb : 2 ≤ b) (h16 : b ≤ 16) :
    ∀ c ∈ baseRepr b n, ¬(c = '.' ∨ c = ':' ∨ c = '%') := by
  intro c hc
  obtain ⟨d, hd, rfl⟩ := mem_baseRepr b n hb c hc
  exact digitChar_not_special d (by omega)

theorem firstSpecial_v4Chars (v : Nat) : firstSpecial (v4Chars v) = some '.' := by
  rw [v4Chars, firstSpecial_append _ _ (baseRepr_not_special 10 _ (by omega) (by omega))]
  rw [firstSpecial, if_pos (by simp)]

theorem parseAddrGo_v4Chars (v : Nat) (hv : v < 2 ^ 32) :
    parseAddrGo (v4Chars v) = some (Addr.v4 v) := by
  rw [parseAddrGo, firstSpecial_v4Chars]
  show Option.map Addr.v4 (parseIPv4 (v4Chars v)) = some (Addr.v4 v)
  rw [parseIPv4_v4Chars v hv]
  rfl

/-! ## The last address -/

theorem or_mask_eq (a k : Nat) : a ||| (2 ^ k - 1) = 2 ^ k * (a / 2 ^ k) + (2 ^ k - 1) := by
  apply Nat.eq_of_testBit_eq
  intro j
  have hmask : 2 ^ k - 1 < 2 ^ k := Nat.sub_lt (Nat.pos_pow_of_pos k (by omega)) (by omega)
  rw [Nat.testBit_or, Nat.testBit_mul_pow_two_add _ hmask j]
  by_cases hj : j < k
  · simp [hj, Nat.testBit_two_pow_sub_one]
  · simp only [Nat.testBit_two_pow_sub_one, if_neg hj, decide_eq_true_eq]
    have h1 : (a / 2 ^ k).testBit (j - k) = a.testBit j := by
      rw [← Nat.shiftRight_eq_div_pow, Nat.testBit_shiftRight]
      congr 1
      omega
    simp [h1, hj]

theorem le_or_mask (a k : Nat) : a ≤ a ||| (2 ^ k - 1) := by
  rw [or_mask_eq]
  calc a = 2 ^ k * (a / 2 ^ k) + a % 2 ^ k := (Nat.div_add_mod a (2 ^ k)).symm
    _ ≤ 2 ^ k * (a / 2 ^ k) + (2 ^ k - 1) :=
      Nat.add_le_add_left
        (Nat.le_pred_of_lt (Nat.mod_lt a (Nat.pos_pow_of_pos k (by omega)))) _

theorem or_mask_lt (a k w : Nat) (ha : a < 2 ^ w) (hk : k ≤ w) :
    a ||| (2 ^ k - 1) < 2 ^ w :=
  Nat.or_lt_two_pow ha
    (lt_of_lt_of_le (Nat.sub_lt (Nat.pos_pow_of_pos k (by omega)) (by omega))
      (Nat.pow_le_pow_right (by omega) hk))

theorem pfxLastIP_val (p : Pfx) :
    (pfxLastIP p).val = p.addr.val ||| (2 ^ (p.addr.bitWidth - p.bits) - 1) := by
  cases h : p.addr <;> simp [pfxLastIP, h, Addr.val, Addr.bitWidth]

theorem pfxLastIP_bitWidth (p : Pfx) : (pfxLastIP p).bitWidth = p.addr.bitWidth := by
  cases h : p.addr <;> simp [pfxLastIP, h, Addr.bitWidth]

theorem pfxLastIP_wf (p : Pfx) (hwf : p.wf) : (pfxLastIP p).wf := by
  rw [Addr.wf, pfxLastIP_val, pfxLastIP_bitWidth]
  exact or_mask_lt _ _ _ hwf.1 (Nat.sub_le _ _)

/-- C2: for every valid prefix, the last address is the base address with
every bit at position at least `bits` from the most significant end (that
is, at little-endian position below width - bits) forced to 1; all higher
bits agree with the first address; and first <= last as big-endian
unsigned integers. -/
theorem C2_lastAddress (p : Pfx) (hwf : p.wf) :
    (∀ i, i < p.addr.bitWidth →
      (pfxLastIP p).val.testBit i =
        if i < p.addr.bitWidth - p.bits then true else p.addr.val.testBit i) ∧
    p.addr.val ≤ (pfxLastIP p).val := by
  constructor
  · intro i _
    rw [pfxLastIP_val, Nat.testBit_or, Nat.testBit_two_pow_sub_one]
    by_cases hi : i < p.addr.bitWidth - p.bits
    · simp [hi]
    · simp [hi]
  · rw [pfxLastIP_val]
    exact le_or_mask _ _

/-- C2 witness: the 4-byte prefix 1.1.1.0/24. -/
theorem C2_lastAddress_witness :
    (Pfx.mk (Addr.v4 16843008) 24).wf ∧
    ((pfxLastIP (Pfx.mk (Addr.v4 16843008) 24)).val.testBit 3 = true ∧
      (pfxLastIP (Pfx.mk (Addr.v4 16843008) 24)).val.testBit 16 =
        (Addr.v4 16843008).val.testBit 16 ∧
      (Addr.v4 16843008).val ≤ (pfxLastIP (Pfx.mk (Addr.v4 16843008) 24)).val) := by
  refine ⟨by decide, ?_, ?_,
    (C2_lastAddress (Pfx.mk (Addr.v4 16843008) 24) (by decide)).2⟩
  · have h := (C2_lastAddress (Pfx.mk (Addr.v4 16843008) 24) (by decide)).1 3 (by decide)
    rw [h]
    decide
  · have h := (C2_lastAddress (Pfx.mk (Addr.v4 16843008) 24) (by decide)).1 16 (by decide)
    rw [h]
    decide

/-! ## Hexadecimal and decimal renderings -/

theorem encodeToString_length (bs : List Nat) :
    (encodeToString bs).length = 2 * bs.length := by
  induction bs with
  | nil => rfl
  | cons b bs ih =>
    show (Nat.digitChar (b / 16) :: Nat.digitChar (b % 16) :: encodeToString bs).length = _
    simp only [List.length_cons, ih, List.length_cons]
    omega

theorem mem_encodeToString (bs : List Nat) (h : ∀ x ∈ bs, x < 256) :
    ∀ c ∈ encodeToString bs, ∃ d, d < 16 ∧ c = Nat.digitChar d := by
  induction bs with
  | nil => intro c hc; simp [encodeToString] at hc
  | cons b bs ih =>
    intro c hc
    have hb : b < 256 := h b (by simp)
    have hs : encodeToString (b :: bs) =
        Nat.digitChar (b / 16) :: Nat.digitChar (b % 16) :: encodeToString bs := rfl
    rw [hs] at hc
    have hc' : c = Nat.digitChar (b / 16) ∨ c = Nat.digitChar (b % 16) ∨
        c ∈ encodeToString bs := by
      simpa using hc
    rcases hc' with rfl | rfl | hc'
    · exact ⟨b / 16, by omega, rfl⟩
    · exact ⟨b % 16, by omega, rfl⟩
    · exact ih (fun x hx => h x (by simp [hx])) c hc'

theorem parseBaseChars_encodeToString (bs : List Nat) (h : ∀ x ∈ bs, x < 256) :
    parseBaseChars 16 (encodeToString bs) = bytesToNat bs := by
  induction bs with
  | nil => rfl
  | cons b bs ih =>
    have hb : b < 256 := h b (by simp)
    have ih' : List.foldl (fun a c => a * 16 + charVal c) 0 (encodeToString bs) =
        bytesToNat bs := ih (fun x hx => h x (by simp [hx]))
    have hs : encodeToString (b :: bs) =
        Nat.digitChar (b / 16) :: Nat.digitChar (b % 16) :: encodeToString bs := rfl
    rw [parseBaseChars, hs]
    simp only [List.foldl_cons]
    rw [charVal_digitChar (b / 16) (by omega), charVal_digitChar (b % 16) (by omega)]
    have h1 : (0 * 16 + b / 16) * 16 + b % 16 = b := by omega
    rw [h1, foldl_mul_add_char 16 (encodeToString bs) b, ih', encodeToString_length]
    have h2 : (16 : Nat) ^ (2 * bs.length) = 256 ^ bs.length := by
      rw [pow_mul]
      norm_num
    rw [h2]
    have h3 : bytesToNat (b :: bs) = b * 256 ^ bs.length + bytesToNat bs := by
      show List.foldl (fun a x => a * 256 + x) 0 (b :: bs) = _
      rw [List.foldl_cons]
      have h4 : (0 : Nat) * 256 + b = b := by omega
      rw [h4, foldl_mul_add 256 bs b]
      rfl
    rw [h3]

theorem parseBaseChars_trimZero (b : Nat) (s : List Char) :
    parseBaseChars b (trimLeading ['0'] s) = parseBaseChars b s := by
  rw [trimLeading]
  by_cases h : (['0'] : List Char).isPrefixOf s
  · rw [if_pos h]
    cases s with
    | nil => simp [List.isPrefixOf] at h
    | cons c t =>
      have hc : c = '0' := by
        have h' := h
        simp only [List.isPrefixOf, List.isPrefixOf_nil_left, Bool.and_true] at h'
        exact (beq_iff_eq.mp h').symm
      subst hc
      show parseBaseChars b t = parseBaseChars b ('0' :: t)
      simp only [parseBaseChars, List.foldl_cons]
      have h0 : (0 : Nat) * b + charVal '0' = 0 := by
        have hcv : charVal '0' = 0 := by decide
        omega
      rw [h0]
  · rw [if_neg h]

theorem addr_bytes_length (a : Addr) : a.bytes.length = a.byteLen := by
  cases a <;> simp [Addr.bytes, Addr.byteLen, beBytes_length]

theorem addr_bytes_lt (a : Addr) : ∀ x ∈ a.bytes, x < 256 := by
  cases a <;> exact fun x hx => beBytes_lt _ _ x hx

theorem bytesToNat_addrBytes (a : Addr) (hwf : a.wf) : bytesToNat a.bytes = a.val := by
  cases a with
  | v4 v =>
    exact bytesToNat_beBytes 4 v (by rw [Addr.wf] at hwf; norm_num at hwf ⊢; exact hwf)
  | v6 v =>
    exact bytesToNat_beBytes 16 v (by rw [Addr.wf] at hwf; norm_num at hwf ⊢; exact hwf)

theorem toHex_parse (a : Addr) (hwf : a.wf) : parseBaseChars 16 (toHex a) = a.val := by
  rw [toHex, parseBaseChars_trimZero, parseBaseChars_encodeToString _ (addr_bytes_lt a),
    bytesToNat_addrBytes a hwf]

theorem toHex_mem (a : Addr) : ∀ c ∈ toHex a, ∃ d, d < 16 ∧ c = Nat.digitChar d := by
  intro c hc
  rw [toHex, trimLeading] at hc
  have hmem : c ∈ encodeToString a.bytes := by
    by_cases h : (['0'] : List Char).isPrefixOf (encodeToString a.bytes)
    · rw [if_pos h] at hc
      exact List.mem_of_mem_drop hc
    · rwa [if_neg h] at hc
  exact mem_encodeToString a.bytes (addr_bytes_lt a) c hmem

theorem toHex_length (a : Addr) : 2 * a.byteLen - 1 ≤ (toHex a).length := by
  rw [toHex, trimLeading]
  have hone : (['0'] : List Char).length = 1 := rfl
  by_cases h : (['0'] : List Char).isPrefixOf (encodeToString a.bytes)
  · rw [if_pos h, List.length_drop, encodeToString_length, addr_bytes_length, hone]
  · rw [if_neg h, encodeToString_length, addr_bytes_length]
    omega

theorem toHex_ne_nil (a : Addr) : toHex a ≠ [] := by
  have h := toHex_length a
  have hbl : 1 ≤ a.byteLen := by cases a <;> simp [Addr.byteLen]
  intro hnil
  rw [hnil] at h
  simp at h
  omega

/-- C3 counterexample: at the all-zeros 4-byte address the code's toHex
returns seven zero characters, not "0", so the rendering has leading zero
digits and the value 0 does not render as "0". -/
theorem C3_counterexample :
    toHex (Addr.v4 0) = ['0', '0', '0', '0', '0', '0', '0'] ∧
    toHex (Addr.v4 0) ≠ ['0'] ∧
    toHex (Addr.v4 0) ≠ specHexRepr (Addr.v4 0) := by decide

/-- C3 (amended): toHex renders the address bytes as lowercase base-16
digits with no 0x marker, and the digits parse back in base 16 to the
address value; but only one leading zero digit is dropped (the fixed-width
encoding keeps the rest), so for 1.1.1.0/24 the hex range is 1010100 to
10101ff while for example the value 0 renders as a run of zeros. -/
theorem C3_amended :
    (∀ a : Addr, a.wf →
      parseBaseChars 16 (toHex a) = a.val ∧
      (∀ c ∈ toHex a, isLowerHexChar c = true) ∧
      toHex a ≠ [] ∧
      (['0', 'x'] : List Char).isPrefixOf (toHex a) = false) ∧
    hexRangeLine (Pfx.mk (Addr.v4 16843008) 24) ["X"] = ["1010100", "10101ff", "X"] := by
  constructor
  · intro a hwf
    refine ⟨toHex_parse a hwf, ?_, toHex_ne_nil a, ?_⟩
    · intro c hc
      obtain ⟨d, hd, rfl⟩ := toHex_mem a c hc
      exact digitChar_isLowerHex d hd
    · by_contra h
      rw [Bool.not_eq_false] at h
      have hpre : (['0', 'x'] : List Char) <+: toHex a := by
        rwa [← List.isPrefixOf_iff_prefix]
      have hx : 'x' ∈ toHex a := hpre.subset (by simp)
      obtain ⟨d, hd, hdx⟩ := toHex_mem a 'x' hx
      have : isLowerHexChar 'x' = true := hdx ▸ digitChar_isLowerHex d hd
      exact absurd this (by decide)
  · decide

/-- C3 amended witness: the universal part applied at 1.0.0.1. -/
theorem C3_amended_witness :
    (Addr.v4 16777217).wf ∧ parseBaseChars 16 (toHex (Addr.v4 16777217)) = 16777217 := by
  refine ⟨by decide, (C3_amended.1 (Addr.v4 16777217) (by decide)).1⟩

/-- C7: for every address, the decimal rendering parsed in base 10 and the
hex rendering parsed in base 16 denote the same integer. -/
theorem C7_decimal_hex_same_integer (a : Addr) :
    parseBaseChars 10 (toDecimal a) = parseBaseChars 16 (toHex a) := by
  rw [toDecimal, parseBaseChars_baseRepr 10 _ (by omega) (by omega),
    toHex, parseBaseChars_trimZero, parseBaseChars_encodeToString _ (addr_bytes_lt a)]

/-! ## The record pipeline -/

theorem makeHeaderF_eq (cidr ipRange intRange hexRange : Bool) (orig : List String) :
    makeHeaderF cidr ipRange intRange hexRange orig =
      derivedHeaderCols cidr ipRange intRange hexRange ++ orig := by
  cases cidr <;> cases ipRange <;> cases intRange <;> cases hexRange <;>
    simp [makeHeaderF, derivedHeaderCols, addHeaderFunc, cidrHeader, rangeHeader,
      intRangeHeader, hexRangeHeader]

theorem makeLineF_eq (cidr ipRange intRange hexRange : Bool) (p : Pfx) (orig : List String) :
    makeLineF cidr ipRange intRange hexRange p orig =
      derivedCols cidr ipRange intRange hexRange p ++ orig := by
  cases cidr <;> cases ipRange <;> cases intRange <;> cases hexRange <;>
    simp [makeLineF, derivedCols, addLineFunc, cidrLine, rangeLine,
      intRangeLine, hexRangeLine]

theorem derivedCols_length (cidr ipRange intRange hexRange : Bool) (p : Pfx) :
    (derivedCols cidr ipRange intRange hexRange p).length =
      (derivedHeaderCols cidr ipRange intRange hexRange).length := by
  cases cidr <;> cases ipRange <;> cases intRange <;> cases hexRange <;>
    simp [derivedCols, derivedHeaderCols]

/-- Default prefix used only to state results of successful parses. -/
theorem convertLoop_append (ml : Pfx → List String → List String) (fc : Nat)
    (pre rest : List (List String))
    (h : ∀ row ∈ pre, row.length = fc ∧ (parsePfxStr (row.headD "")).isSome) :
    convertLoop ml fc (pre ++ rest) =
      (pre.map (fun row =>
          ml ((parsePfxStr (row.headD "")).getD (Pfx.mk (Addr.v4 0) 0)) (row.drop 1)) ++
        (convertLoop ml fc rest).1,
       (convertLoop ml fc rest).2) := by
  induction pre with
  | nil => simp
  | cons row pre ih =>
    obtain ⟨hl, hs⟩ := h row (by simp)
    obtain ⟨p, hp⟩ := Option.isSome_iff_exists.mp hs
    have ih' := ih (fun r hr => h r (by simp [hr]))
    show convertLoop ml fc (row :: (pre ++ rest)) = _
    simp only [convertLoop, if_neg (by simp [hl] : ¬row.length ≠ fc), hp, ih', List.map_cons,
      Option.getD_some, List.cons_append]

theorem convertLoop_ok (ml : Pfx → List String → List String) (fc : Nat)
    (rows : List (List String))
    (h : ∀ row ∈ rows, row.length = fc ∧ (parsePfxStr (row.headD "")).isSome) :
    convertLoop ml fc rows =
      (rows.map (fun row =>
          ml ((parsePfxStr (row.headD "")).getD (Pfx.mk (Addr.v4 0) 0)) (row.drop 1)),
       none) := by
  have h0 := convertLoop_append ml fc rows [] h
  simpa [convertLoop] using h0

theorem convert_layout (cidr ipRange intRange hexRange : Bool)
    (header : List String) (rows : List (List String))
    (hlen : ∀ row ∈ rows, row.length = header.length)
    (hparse : ∀ row ∈ rows, (parsePfxStr (row.headD "")).isSome) :
    Convert cidr ipRange intRange hexRange (header :: rows) =
      ((derivedHeaderCols cidr ipRange intRange hexRange ++ header.drop 1) ::
        rows.map (fun row =>
          derivedCols cidr ipRange intRange hexRange
            ((parsePfxStr (row.headD "")).getD (Pfx.mk (Addr.v4 0) 0)) ++ row.drop 1),
       none) := by
  simp only [Convert, convertRun]
  rw [convertLoop_ok _ _ rows (fun r hr => ⟨hlen r hr, hparse r hr⟩)]
  rw [makeHeaderF_eq]
  have hmap : rows.map (fun row =>
      makeLineF cidr ipRange intRange hexRange
        ((parsePfxStr (row.headD "")).getD (Pfx.mk (Addr.v4 0) 0)) (row.drop 1)) =
      rows.map (fun row =>
        derivedCols cidr ipRange intRange hexRange
          ((parsePfxStr (row.headD "")).getD (Pfx.mk (Addr.v4 0) 0)) ++ row.drop 1) :=
    List.map_congr_left fun row _ => makeLineF_eq _ _ _ _ _ _
  exact congrArg (fun l => (_ :: l, none)) hmap

/-- C1: for every flag combination and well-formed input, the output is the
header and data rows in the fixed column layout (cidr group, address-range
group, integer-range group, hex-range group, then the input columns from
position 1 on, verbatim), and the header and every data row of the output
have equal column count. -/
theorem C1_columnLayout (cidr ipRange intRange hexRange : Bool)
    (header : List String) (rows : List (List String))
    (hlen : ∀ row ∈ rows, row.length = header.length)
    (hparse : ∀ row ∈ rows, (parsePfxStr (row.headD "")).isSome) :
    Convert cidr ipRange intRange hexRange (header :: rows) =
      ((derivedHeaderCols cidr ipRange intRange hexRange ++ header.drop 1) ::
        rows.map (fun row =>
          derivedCols cidr ipRange intRange hexRange
            ((parsePfxStr (row.headD "")).getD (Pfx.mk (Addr.v4 0) 0)) ++ row.drop 1),
       none) ∧
    (∀ out1 ∈ (Convert cidr ipRange intRange hexRange (header :: rows)).1,
      ∀ out2 ∈ (Convert cidr ipRange intRange hexRange (header :: rows)).1,
        out1.length = out2.length) := by
  have hmain := convert_layout cidr ipRange intRange hexRange header rows hlen hparse
  refine ⟨hmain, ?_⟩
  have hcount : ∀ out ∈ (Convert cidr ipRange intRange hexRange (header :: rows)).1,
      out.length = (derivedHeaderCols cidr ipRange intRange hexRange).length +
        (header.length - 1) := by
    intro out hout
    rw [hmain] at hout
    simp only [List.mem_cons, List.mem_map] at hout
    rcases hout with rfl | ⟨row, hrow, rfl⟩
    · simp [List.length_append, List.length_drop]
    · rw [List.length_append, derivedCols_length, List.length_drop, hlen row hrow]
  intro out1 h1 out2 h2
  rw [hcount out1 h1, hcount out2 h2]

/-- C1 witness: all four flags on a one-row table. -/
theorem C1_columnLayout_witness :
    Convert true true true true [["network", "city"], ["1.1.1.0/24", "X"]] =
      ([["network", "network_start_ip", "network_last_ip", "network_start_integer",
         "network_last_integer", "network_start_hex", "network_last_hex", "city"],
        ["1.1.1.0/24", "1.1.1.0", "1.1.1.255", "16843008", "16843263",
         "1010100", "10101ff", "X"]],
       none) := by
  have h := (C1_columnLayout true true true true ["network", "city"] [["1.1.1.0/24", "X"]]
    (by decide) (by decide)).1
  exact h.trans (by decide)

/-- C5: with all four flags false the conversion passes every row through
unchanged except that the leading network column is dropped from the header
and from every data row. -/
theorem C5_stripNetworkColumn (header : List String) (rows : List (List String))
    (hlen : ∀ row ∈ rows, row.length = header.length)
    (hparse : ∀ row ∈ rows, (parsePfxStr (row.headD "")).isSome) :
    Convert false false false false (header :: rows) =
      (header.drop 1 :: rows.map (fun row => row.drop 1), none) := by
  have h := convert_layout false false false false header rows hlen hparse
  rw [h]
  simp [derivedHeaderCols, derivedCols]

/-- C5 witness: a two-row table with no flags. -/
theorem C5_stripNetworkColumn_witness :
    Convert false false false false
        [["network", "a", "b"], ["1.1.1.0/24", "x", "y"], ["2001:db8::/32", "u", "v"]] =
      ([["a", "b"], ["x", "y"], ["u", "v"]], none) := by
  exact (C5_stripNetworkColumn ["network", "a", "b"]
    [["1.1.1.0/24", "x", "y"], ["2001:db8::/32", "u", "v"]] (by decide) (by decide)).trans
    (by decide)

/-- C4: a data row whose column 0 is rejected by the network parser makes
the whole conversion fail with a parse error carrying the offending text;
the failing record contributes no output row, and every row before it is
still in the output. -/
theorem C4_parseFailure (cidr ipRange intRange hexRange : Bool)
    (header : List String) (pre : List (List String)) (bad : List String)
    (post : List (List String))
    (hpre : ∀ row ∈ pre, row.length = header.length ∧ (parsePfxStr (row.headD "")).isSome)
    (hbadlen : bad.length = header.length)
    (hbad : parsePfxStr (bad.headD "") = none) :
    Convert cidr ipRange intRange hexRange (header :: (pre ++ bad :: post)) =
      ((derivedHeaderCols cidr ipRange intRange hexRange ++ header.drop 1) ::
        pre.map (fun row =>
          derivedCols cidr ipRange intRange hexRange
            ((parsePfxStr (row.headD "")).getD (Pfx.mk (Addr.v4 0) 0)) ++ row.drop 1),
       some (ConvError.parseNetwork (bad.headD ""))) := by
  simp only [Convert, convertRun]
  rw [convertLoop_append _ _ pre (bad :: post) hpre]
  have hbadstep : convertLoop (makeLineF cidr ipRange intRange hexRange) header.length
      (bad :: post) = ([], some (ConvError.parseNetwork (bad.headD ""))) := by
    simp only [convertLoop, if_neg (by simp [hbadlen] : ¬bad.length ≠ header.length), hbad]
  rw [hbadstep, makeHeaderF_eq]
  have hmap : pre.map (fun row =>
      makeLineF cidr ipRange intRange hexRange
        ((parsePfxStr (row.headD "")).getD (Pfx.mk (Addr.v4 0) 0)) (row.drop 1)) =
      pre.map (fun row =>
        derivedCols cidr ipRange intRange hexRange
          ((parsePfxStr (row.headD "")).getD (Pfx.mk (Addr.v4 0) 0)) ++ row.drop 1) :=
    List.map_congr_left fun row _ => makeLineF_eq _ _ _ _ _ _
  simp only [List.append_nil]
  exact congrArg (fun l => (_ :: l, _)) hmap

/-- C4 witness: a malformed network and, in the amended-width sense, a
prefix length over the family bit width both abort with the offending
text, keeping the earlier row. -/
theorem C4_parseFailure_witness :
    Convert true false false false
        [["network", "a"], ["1.0.0.0/24", "c"], ["not-a-network", "b"]] =
      ([["network", "a"], ["1.0.0.0/24", "c"]],
       some (ConvError.parseNetwork "not-a-network")) ∧
    Convert true false false false [["network", "a"], ["1.2.3.4/33", "b"]] =
      ([["network", "a"]], some (ConvError.parseNetwork "1.2.3.4/33")) := by
  constructor
  · have h := C4_parseFailure true false false false ["network", "a"]
      [["1.0.0.0/24", "c"]] ["not-a-network", "b"] [] (by decide) (by decide) (by decide)
    exact h.trans (by decide)
  · have h := C4_parseFailure true false false false ["network", "a"]
      [] ["1.2.3.4/33", "b"] [] (by decide) (by decide) (by decide)
    exact h.trans (by decide)

/-- C9: a data row whose field count differs from the header's makes the
conversion fail with the read error encoding/csv raises for a wrong field
count; the offending row is not written and earlier rows stay. -/
theorem C9_fieldCountEnforced (cidr ipRange intRange hexRange : Bool)
    (header : List String) (pre : List (List String)) (bad : List String)
    (post : List (List String))
    (hpre : ∀ row ∈ pre, row.length = header.length ∧ (parsePfxStr (row.headD "")).isSome)
    (hbadlen : bad.length ≠ header.length) :
    Convert cidr ipRange intRange hexRange (header :: (pre ++ bad :: post)) =
      ((derivedHeaderCols cidr ipRange intRange hexRange ++ header.drop 1) ::
        pre.map (fun row =>
          derivedCols cidr ipRange intRange hexRange
            ((parsePfxStr (row.headD "")).getD (Pfx.mk (Addr.v4 0) 0)) ++ row.drop 1),
       some ConvError.fieldCount) := by
  simp only [Convert, convertRun]
  rw [convertLoop_append _ _ pre (bad :: post) hpre]
  have hbadstep : convertLoop (makeLineF cidr ipRange intRange hexRange) header.length
      (bad :: post) = ([], some ConvError.fieldCount) := by
    simp only [convertLoop, if_pos hbadlen]
  rw [hbadstep, makeHeaderF_eq]
  have hmap : pre.map (fun row =>
      makeLineF cidr ipRange intRange hexRange
        ((parsePfxStr (row.headD "")).getD (Pfx.mk (Addr.v4 0) 0)) (row.drop 1)) =
      pre.map (fun row =>
        derivedCols cidr ipRange intRange hexRange
          ((parsePfxStr (row.headD "")).getD (Pfx.mk (Addr.v4 0) 0)) ++ row.drop 1) :=
    List.map_congr_left fun row _ => makeLineF_eq _ _ _ _ _ _
  simp only [List.append_nil]
  exact congrArg (fun l => (_ :: l, _)) hmap

/-- C9 witness: a row with an extra field aborts even though its network
parses. -/
theorem C9_fieldCountEnforced_witness :
    Convert true false false false
        [["network", "a"], ["1.0.0.0/24", "c"], ["2.0.0.0/24", "b", "extra"]] =
      ([["network", "a"], ["1.0.0.0/24", "c"]],
       some ConvError.fieldCount) := by
  have h := C9_fieldCountEnforced true false false false ["network", "a"]
    [["1.0.0.0/24", "c"]] ["2.0.0.0/24", "b", "extra"] [] (by decide) (by decide)
  exact h.trans (by decide)

/-- C10: parsing does not mask host bits: 1.1.1.1/24 keeps the host byte in
the stored address, the conversion succeeds and the cidr and start columns
show the unmasked address while the last columns still have every host bit
forced to 1 (generically, every bit below width - bits of the last address
is 1). -/
theorem C10_unmaskedHostBits :
    parsePfxStr "1.1.1.1/24" = some (Pfx.mk (Addr.v4 16843009) 24) ∧
    Convert true true true true [["network", "c"], ["1.1.1.1/24", "y"]] =
      ([["network", "network_start_ip", "network_last_ip", "network_start_integer",
         "network_last_integer", "network_start_hex", "network_last_hex", "c"],
        ["1.1.1.1/24", "1.1.1.1", "1.1.1.255", "16843009", "16843263",
         "1010101", "10101ff", "y"]],
       none) ∧
    (∀ q : Pfx, ∀ j, j < q.addr.bitWidth - q.bits → (pfxLastIP q).val.testBit j = true) := by
  refine ⟨by decide, by decide, ?_⟩
  intro q j hj
  rw [pfxLastIP_val, Nat.testBit_or, Nat.testBit_two_pow_sub_one]
  simp [hj]

/-- C10 witness: the generic host-bit part at 10.0.0.1/8, bit 5. -/
theorem C10_unmaskedHostBits_witness :
    (0 : Nat) + 5 < (Pfx.mk (Addr.v4 167772161) 8).addr.bitWidth -
        (Pfx.mk (Addr.v4 167772161) 8).bits ∧
    (pfxLastIP (Pfx.mk (Addr.v4 167772161) 8)).val.testBit 5 = true := by
  refine ⟨by decide, C10_unmaskedHostBits.2.2 (Pfx.mk (Addr.v4 167772161) 8) 5 (by decide)⟩

/-! ## Colon-hextet rendering: structure of the zero run -/

theorem joinColon_cons2 (g g' : List Char) (gs : List (List Char)) :
    joinColon (g :: g' :: gs) = g ++ ':' :: joinColon (g' :: gs) := rfl

theorem leadZeros_le_length (ws : List Nat) : leadZeros ws ≤ ws.length := by
  induction ws with
  | nil => simp [leadZeros]
  | cons w ws ih =>
    rw [leadZeros]
    by_cases h : w = 0
    · simp only [if_pos h, List.length_cons]
      omega
    · simp [if_neg h]

theorem leadZeros_spec (ws : List Nat) : ∀ j, j < leadZeros ws → ws.getD j 1 = 0 := by
  induction ws with
  | nil => simp [leadZeros]
  | cons w ws ih =>
    intro j hj
    rw [leadZeros] at hj
    by_cases h : w = 0
    · rw [if_pos h] at hj
      cases j with
      | zero => simpa using h
      | succ j =>
        show ws.getD j 1 = 0
        exact ih j (by omega)
    · rw [if_neg h] at hj
      omega

theorem zeroRunAux_cases (ws : List Nat) : ∀ (i : Nat) (best : Nat × Nat),
    zeroRunAux ws i best = best ∨
    ∃ j l, i ≤ j ∧ 2 ≤ l ∧ j + l ≤ i + ws.length ∧
      (∀ m, m < l → ws.getD (j - i + m) 1 = 0) ∧
      zeroRunAux ws i best = (j, j + l) := by
  induction ws with
  | nil => intro i best; left; rfl
  | cons w ws ih =>
    intro i best
    rw [zeroRunAux]
    set best' := if 2 ≤ leadZeros (w :: ws) ∧ best.2 - best.1 < leadZeros (w :: ws)
      then (i, i + leadZeros (w :: ws)) else best with hbest'
    rcases ih (i + 1) best' with h | ⟨j, l, hij, hl2, hjl, hz, heq⟩
    · rw [h]
      by_cases hc : 2 ≤ leadZeros (w :: ws) ∧ best.2 - best.1 < leadZeros (w :: ws)
      · right
        refine ⟨i, leadZeros (w :: ws), le_refl i, hc.1, ?_, ?_, ?_⟩
        · have := leadZeros_le_length (w :: ws)
          simp only [List.length_cons] at this ⊢
          omega
        · intro m hm
          have h0 : i - i + m = m := by omega
          rw [h0]
          exact leadZeros_spec (w :: ws) m hm
        · rw [hbest', if_pos hc]
      · left
        rw [hbest', if_neg hc]
    · right
      refine ⟨j, l, by omega, hl2, ?_, ?_, heq⟩
      · simp only [List.length_cons]
        omega
      · intro m hm
        have hidx : j - i + m = (j - (i + 1) + m) + 1 := by omega
        rw [hidx]
        show ws.getD (j - (i + 1) + m) 1 = 0
        exact hz m hm

theorem zeroRun_cases (ws : List Nat) :
    zeroRun ws = (255, 255) ∨
    ∃ s l, 2 ≤ l ∧ s + l ≤ ws.length ∧
      (∀ m, m < l → ws.getD (s + m) 1 = 0) ∧ zeroRun ws = (s, s + l) := by
  rcases zeroRunAux_cases ws 0 (255, 255) with h | ⟨j, l, _, hl2, hjl, hz, heq⟩
  · left
    exact h
  · right
    refine ⟨j, l, hl2, by omega, ?_, heq⟩
    intro m hm
    have h0 : j + m = j - 0 + m := by omega
    rw [h0]
    exact hz m hm

theorem take_replicate_drop (ws : List Nat) (s l : Nat) (hsl : s + l ≤ ws.length)
    (hz : ∀ m, m < l → ws.getD (s + m) 1 = 0) :
    ws = ws.take s ++ (List.replicate l 0 ++ ws.drop (s + l)) := by
  have h1 : ws = ws.take s ++ ws.drop s := (List.take_append_drop s ws).symm
  have h2 : ws.drop s = (ws.drop s).take l ++ (ws.drop s).drop l := by
    rw [List.take_append_drop]
  have h3 : (ws.drop s).drop l = ws.drop (s + l) := by
    rw [List.drop_drop]
  have h4 : (ws.drop s).take l = List.replicate l 0 := by
    apply List.eq_replicate_iff.mpr
    constructor
    · rw [List.length_take, List.length_drop]
      omega
    · intro b hb
      obtain ⟨idx, hidx, hbe⟩ := List.mem_iff_getElem.mp hb
      have hidxl : idx < l := by
        have hcopy := hidx
        rw [List.length_take, List.length_drop] at hcopy
        omega
      have hidx2 : idx < (ws.drop s).length := by
        rw [List.length_drop]
        omega
      have hsidx : s + idx < ws.length := by omega
      have h5 : ((ws.drop s).take l)[idx] = (ws.drop s)[idx] :=
        @List.getElem_take _ (ws.drop s) l idx hidx
      have h6 : (ws.drop s)[idx] = ws[s + idx] := @List.getElem_drop _ ws s idx hidx2
      have h7 : ws.getD (s + idx) 1 = ws[s + idx] := List.getD_eq_getElem ws 1 hsidx
      rw [← hbe, h5, h6, ← h7]
      exact hz idx hidxl
  calc ws = ws.take s ++ ws.drop s := h1
    _ = ws.take s ++ ((ws.drop s).take l ++ (ws.drop s).drop l) := by rw [← h2]
    _ = ws.take s ++ (List.replicate l 0 ++ ws.drop (s + l)) := by rw [h4, h3]

/-! ## Colon-hextet parse of a rendered address -/

theorem takeWhile_append_stop (p : Char → Bool) (xs rest : List Char)
    (hxs : ∀ c ∈ xs, p c = true)
    (hstop : ∀ c, rest.head? = some c → p c = false) :
    (xs ++ rest).takeWhile p = xs ∧ (xs ++ rest).dropWhile p = rest := by
  induction xs with
  | nil =>
    cases rest with
    | nil => exact ⟨rfl, rfl⟩
    | cons r t =>
      have hr : p r = false := hstop r rfl
      constructor
      · show (r :: t).takeWhile p = []
        simp [List.takeWhile_cons, hr]
      · show (r :: t).dropWhile p = r :: t
        simp [List.dropWhile_cons, hr]
  | cons x xs ih =>
    have hx : p x = true := hxs x (by simp)
    obtain ⟨h1, h2⟩ := ih (fun c hc => hxs c (by simp [hc]))
    constructor
    · show ((x :: (xs ++ rest))).takeWhile p = x :: xs
      simp [List.takeWhile_cons, hx, h1]
    · show ((x :: (xs ++ rest))).dropWhile p = rest
      simp [List.dropWhile_cons, hx, h2]

theorem hexAcc_baseRepr (w : Nat) : hexAcc (baseRepr 16 w) = w :=
  parseBaseChars_baseRepr 16 w (by omega) (by omega)

theorem baseRepr16_hexChars (w : Nat) : ∀ c ∈ baseRepr 16 w, isHexDigitGo c = true := by
  intro c hc
  obtain ⟨d, hd, rfl⟩ := mem_baseRepr 16 w (by omega) c hc
  exact digitChar_isHexGo d hd

theorem baseRepr16_len4 (w : Nat) (hw : w < 65536) : ¬4 < (baseRepr 16 w).length := by
  have h := baseRepr_length_le 16 w 4 (by omega) (by omega) (by norm_num; omega)
  omega

theorem v6Loop_group_end (fuel w : Nat) (hw : w < 65536) (acc : List Nat)
    (ell : Option Nat) (hacc : acc.length < 16) :
    v6Loop (fuel + 1) (baseRepr 16 w) acc ell = some (acc ++ [w / 256, w % 256], ell, []) := by
  have hsplit := takeWhile_append_stop isHexDigitGo (baseRepr 16 w) []
    (baseRepr16_hexChars w) (by intro c hc; simp at hc)
  rw [List.append_nil] at hsplit
  simp only [v6Loop, if_neg (by omega : ¬16 ≤ acc.length), hsplit.1, hsplit.2]
  rw [if_neg (by simpa using baseRepr_length_pos 16 w), if_neg (baseRepr16_len4 w hw),
    hexAcc_baseRepr]

theorem v6Loop_group_colon (fuel w : Nat) (hw : w < 65536) (c : Char) (t : List Char)
    (hc : c ≠ ':') (acc : List Nat) (ell : Option Nat) (hacc : acc.length < 16) :
    v6Loop (fuel + 1) (baseRepr 16 w ++ ':' :: c :: t) acc ell =
      v6Loop fuel (c :: t) (acc ++ [w / 256, w % 256]) ell := by
  have hsplit := takeWhile_append_stop isHexDigitGo (baseRepr 16 w) (':' :: c :: t)
    (baseRepr16_hexChars w) (by intro x hx; injection hx with h; rw [← h]; decide)
  simp only [v6Loop, if_neg (by omega : ¬16 ≤ acc.length), hsplit.1, hsplit.2]
  rw [if_neg (by simpa using baseRepr_length_pos 16 w), if_neg (baseRepr16_len4 w hw),
    hexAcc_baseRepr]
  split
  · rename_i heq
    injection heq with h1 h2
    exact absurd h1 (by decide)
  · split
    · rename_i heq
      simp at heq
    · rename_i heq
      injection heq with h1 h2
      exact absurd h1 hc
    · rfl

theorem v6Loop_group_dcolon_end (fuel w : Nat) (hw : w < 65536) (acc : List Nat)
    (hacc : acc.length < 16) :
    v6Loop (fuel + 1) (baseRepr 16 w ++ [':', ':']) acc none =
      some (acc ++ [w / 256, w % 256], some (acc ++ [w / 256, w % 256]).length, []) := by
  have hsplit := takeWhile_append_stop isHexDigitGo (baseRepr 16 w) [':', ':']
    (baseRepr16_hexChars w) (by intro x hx; injection hx with h; rw [← h]; decide)
  simp only [v6Loop, if_neg (by omega : ¬16 ≤ acc.length), hsplit.1, hsplit.2]
  rw [if_neg (by simpa using baseRepr_length_pos 16 w), if_neg (baseRepr16_len4 w hw),
    hexAcc_baseRepr]
  rfl

theorem v6Loop_group_dcolon_more (fuel w : Nat) (hw : w < 65536) (c : Char) (t : List Char)
    (acc : List Nat) (hacc : acc.length < 16) :
    v6Loop (fuel + 1) (baseRepr 16 w ++ ':' :: ':' :: c :: t) acc none =
      v6Loop fuel (c :: t) (acc ++ [w / 256, w % 256])
        (some (acc ++ [w / 256, w % 256]).length) := by
  have hsplit := takeWhile_append_stop isHexDigitGo (baseRepr 16 w) (':' :: ':' :: c :: t)
    (baseRepr16_hexChars w) (by intro x hx; injection hx with h; rw [← h]; decide)
  simp only [v6Loop, if_neg (by omega : ¬16 ≤ acc.length), hsplit.1, hsplit.2]
  rw [if_neg (by simpa using baseRepr_length_pos 16 w), if_neg (baseRepr16_len4 w hw),
    hexAcc_baseRepr]
  rw [if_neg (by simp : ¬(Option.isSome (none : Option Nat) = true)),
    if_neg (by simp : ¬(c :: t = []))]
  split
  · rename_i heq
    injection heq with h1 h2
    exact absurd h1 (by decide)
  · rfl

theorem wordsBytes_cons (w : Nat) (ws : List Nat) :
    wordsBytes (w :: ws) = w / 256 :: w % 256 :: wordsBytes ws := rfl

theorem joinColon_map_head (w : Nat) (ws : List Nat) :
    ∃ c t, joinColon ((w :: ws).map (baseRepr 16)) = c :: t ∧
      isHexDigitGo c = true ∧ c ≠ ':' ∧ c ≠ '.' ∧ c ≠ '%' := by
  obtain ⟨d, ds, hrepr⟩ : ∃ d ds, baseRepr 16 w = d :: ds := by
    cases h : baseRepr 16 w with
    | nil => exact absurd h (baseRepr_ne_nil 16 w)
    | cons d ds => exact ⟨d, ds, rfl⟩
  have hd : isHexDigitGo d = true := baseRepr16_hexChars w d (by rw [hrepr]; simp)
  have hds := mem_baseRepr 16 w (by omega) d (by rw [hrepr]; simp)
  obtain ⟨dv, hdv, rfl⟩ := hds
  have hns := digitChar_not_special dv (by omega)
  cases ws with
  | nil =>
    refine ⟨Nat.digitChar dv, ds, ?_, hd, ?_, ?_, ?_⟩
    · show joinColon [baseRepr 16 w] = _
      rw [show joinColon [baseRepr 16 w] = baseRepr 16 w from rfl, hrepr]
    · intro h; exact hns (Or.inr (Or.inl h))
    · intro h; exact hns (Or.inl h)
    · intro h; exact hns (Or.inr (Or.inr h))
  | cons w' ws' =>
    refine ⟨Nat.digitChar dv, ds ++ ':' :: joinColon ((w' :: ws').map (baseRepr 16)), ?_,
      hd, ?_, ?_, ?_⟩
    · rw [List.map_cons, List.map_cons, joinColon_cons2, ← List.map_cons, hrepr]
      rfl
    · intro h; exact hns (Or.inr (Or.inl h))
    · intro h; exact hns (Or.inl h)
    · intro h; exact hns (Or.inr (Or.inr h))

theorem v6Loop_groups_end : ∀ (ws : List Nat), (∀ w ∈ ws, w < 65536) →
    ∀ (fuel : Nat) (acc : List Nat) (ell : Option Nat),
      ws ≠ [] → ws.length ≤ fuel → acc.length + 2 * ws.length ≤ 16 →
      v6Loop fuel (joinColon (ws.map (baseRepr 16))) acc ell =
        some (acc ++ wordsBytes ws, ell, []) := by
  intro ws
  induction ws with
  | nil => intro _ _ _ _ h; exact absurd rfl h
  | cons w ws ih =>
    intro hws fuel acc ell _ hfuel hroom
    obtain ⟨fuel', rfl⟩ : ∃ f, fuel = f + 1 := ⟨fuel - 1, by simp at hfuel; omega⟩
    have hw : w < 65536 := hws w (by simp)
    have hacc : acc.length < 16 := by simp at hroom; omega
    cases ws with
    | nil =>
      show v6Loop (fuel' + 1) (joinColon [baseRepr 16 w]) acc ell = _
      rw [show joinColon [baseRepr 16 w] = baseRepr 16 w from rfl,
        v6Loop_group_end fuel' w hw acc ell hacc]
      rfl
    | cons w' ws' =>
      obtain ⟨c, t, hct, _, hcol, _, _⟩ := joinColon_map_head w' ws'
      rw [List.map_cons, List.map_cons, joinColon_cons2, ← List.map_cons, hct,
        v6Loop_group_colon fuel' w hw c t hcol acc ell hacc, ← hct,
        ih (fun x hx => hws x (by simp [hx])) fuel' (acc ++ [w / 256, w % 256]) ell
          (by simp) (by simp at hfuel ⊢; omega)
          (by simp only [List.length_append, List.length_cons, List.length_nil] at hroom ⊢
              omega),
        wordsBytes_cons, List.append_assoc]
      rfl

theorem v6Loop_groups_dcolon_end : ∀ (ws : List Nat), (∀ w ∈ ws, w < 65536) →
    ∀ (fuel : Nat) (acc : List Nat),
      ws ≠ [] → ws.length ≤ fuel → acc.length + 2 * ws.length ≤ 16 →
      v6Loop fuel (joinColon (ws.map (baseRepr 16)) ++ [':', ':']) acc none =
        some (acc ++ wordsBytes ws, some (acc ++ wordsBytes ws).length, []) := by
  intro ws
  induction ws with
  | nil => intro _ _ _ h; exact absurd rfl h
  | cons w ws ih =>
    intro hws fuel acc _ hfuel hroom
    obtain ⟨fuel', rfl⟩ : ∃ f, fuel = f + 1 := ⟨fuel - 1, by simp at hfuel; omega⟩
    have hw : w < 65536 := hws w (by simp)
    have hacc : acc.length < 16 := by simp at hroom; omega
    cases ws with
    | nil =>
      show v6Loop (fuel' + 1) (joinColon [baseRepr 16 w] ++ [':', ':']) acc none = _
      rw [show joinColon [baseRepr 16 w] = baseRepr 16 w from rfl,
        v6Loop_group_dcolon_end fuel' w hw acc hacc]
      rfl
    | cons w' ws' =>
      obtain ⟨c, t, hct, _, hcol, _, _⟩ := joinColon_map_head w' ws'
      rw [List.map_cons, List.map_cons, joinColon_cons2, ← List.map_cons]
      rw [List.append_assoc, List.cons_append, hct, List.cons_append,
        v6Loop_group_colon fuel' w hw c (t ++ [':', ':']) hcol acc none hacc]
      rw [← List.cons_append, ← hct,
        ih (fun x hx => hws x (by simp [hx])) fuel' (acc ++ [w / 256, w % 256])
          (by simp) (by simp at hfuel ⊢; omega)
          (by simp only [List.length_append, List.length_cons, List.length_nil] at hroom ⊢
              omega),
        wordsBytes_cons, List.append_assoc]
      rfl

theorem v6Loop_groups_dcolon_mid : ∀ (pre : List Nat), (∀ w ∈ pre, w < 65536) →
    ∀ (suf : List Nat), (∀ w ∈ suf, w < 65536) →
    ∀ (fuel : Nat) (acc : List Nat),
      pre ≠ [] → suf ≠ [] → pre.length + suf.length ≤ fuel →
      acc.length + 2 * pre.length + 2 * suf.length ≤ 16 →
      v6Loop fuel (joinColon (pre.map (baseRepr 16)) ++
          ':' :: ':' :: joinColon (suf.map (baseRepr 16))) acc none =
        some ((acc ++ wordsBytes pre) ++ wordsBytes suf,
          some (acc ++ wordsBytes pre).length, []) := by
  intro pre
  induction pre with
  | nil => intro _ _ _ _ _ h; exact absurd rfl h
  | cons w pre ih =>
    intro hpre suf hsuf fuel acc _ hsne hfuel hroom
    obtain ⟨fuel', rfl⟩ : ∃ f, fuel = f + 1 := ⟨fuel - 1, by simp at hfuel; omega⟩
    have hw : w < 65536 := hpre w (by simp)
    have hacc : acc.length < 16 := by simp at hroom; omega
    obtain ⟨s0, suft, hsuf0⟩ : ∃ s0 suft, suf = s0 :: suft := by
      cases suf with
      | nil => exact absurd rfl hsne
      | cons s0 suft => exact ⟨s0, suft, rfl⟩
    obtain ⟨cs, ts, hcts', _, _, _, _⟩ := joinColon_map_head s0 suft
    have hcts : joinColon (suf.map (baseRepr 16)) = cs :: ts := by
      rw [hsuf0]
      exact hcts'
    cases pre with
    | nil =>
      show v6Loop (fuel' + 1) (joinColon [baseRepr 16 w] ++
        ':' :: ':' :: joinColon (suf.map (baseRepr 16))) acc none = _
      rw [show joinColon [baseRepr 16 w] = baseRepr 16 w from rfl, hcts,
        v6Loop_group_dcolon_more fuel' w hw cs ts acc hacc, ← hcts]
      rw [v6Loop_groups_end suf hsuf fuel' (acc ++ [w / 256, w % 256])
        (some (acc ++ [w / 256, w % 256]).length) hsne
        (by rw [hsuf0] at hfuel ⊢; simp at hfuel ⊢; omega)
        (by simp only [List.length_append, List.length_cons, List.length_nil] at hroom ⊢
            omega)]
      rfl
    | cons w' pre' =>
      obtain ⟨c, t, hct, _, hcol, _, _⟩ := joinColon_map_head w' pre'
      rw [List.map_cons, List.map_cons, joinColon_cons2, ← List.map_cons]
      rw [List.append_assoc, List.cons_append, hct, List.cons_append,
        v6Loop_group_colon fuel' w hw c
          (t ++ ':' :: ':' :: joinColon (suf.map (baseRepr 16))) hcol acc none hacc]
      rw [← List.cons_append, ← hct,
        ih (fun x hx => hpre x (by simp [hx])) suf hsuf fuel' (acc ++ [w / 256, w % 256])
          (by simp) hsne (by simp at hfuel ⊢; omega)
          (by simp only [List.length_append, List.length_cons, List.length_nil] at hroom ⊢
              omega)]
      simp [wordsBytes_cons, List.append_assoc]

theorem hextets_length (v : Nat) : (hextets v).length = 8 := beWords_length 8 v

theorem hextets_lt (v : Nat) : ∀ w ∈ hextets v, w < 65536 := beWords_lt 8 v

theorem wordsToNat_hextets (v : Nat) (hv : v < 2 ^ 128) : wordsToNat (hextets v) = v :=
  wordsToNat_beWords 8 v (by norm_num at hv ⊢; exact hv)

theorem wordsToNat_replicate_zero (k : Nat) : wordsToNat (List.replicate k 0) = 0 := by
  induction k with
  | zero => rfl
  | succ k ih =>
    rw [List.replicate_succ]
    show List.foldl (fun acc w => acc * 65536 + w) (0 * 65536 + 0) (List.replicate k 0) = 0
    have h0 : (0 : Nat) * 65536 + 0 = 0 := by omega
    rw [h0]
    exact ih

theorem bytesToNat_append (xs ys : List Nat) :
    bytesToNat (xs ++ ys) = bytesToNat xs * 256 ^ ys.length + bytesToNat ys := by
  show List.foldl (fun a b => a * 256 + b) 0 (xs ++ ys) = _
  rw [List.foldl_append, foldl_mul_add 256 ys (List.foldl (fun a b => a * 256 + b) 0 xs)]
  rfl

theorem v4Chars_head (v : Nat) :
    ∃ c t, v4Chars v = c :: t ∧ isHexDigitGo c = true ∧
      ¬(c = '.' ∨ c = ':' ∨ c = '%') := by
  obtain ⟨d, ds, hrepr⟩ : ∃ d ds, baseRepr 10 (v / 2 ^ 24 % 256) = d :: ds := by
    cases h : baseRepr 10 (v / 2 ^ 24 % 256) with
    | nil => exact absurd h (baseRepr_ne_nil 10 _)
    | cons d ds => exact ⟨d, ds, rfl⟩
  obtain ⟨dv, hdv, rfl⟩ := mem_baseRepr 10 _ (by omega) d (by rw [hrepr]; simp)
  refine ⟨Nat.digitChar dv, ds ++ ('.' :: (baseRepr 10 (v / 2 ^ 16 % 256) ++
    ('.' :: (baseRepr 10 (v / 2 ^ 8 % 256) ++ ('.' :: baseRepr 10 (v % 256)))))), ?_, ?_, ?_⟩
  · rw [v4Chars, hrepr]
    rfl
  · exact digitChar_isHexGo dv (by omega)
  · exact digitChar_not_special dv (by omega)

theorem baseRepr10_hexChars (o : Nat) : ∀ c ∈ baseRepr 10 o, isHexDigitGo c = true := by
  intro c hc
  obtain ⟨d, hd, rfl⟩ := mem_baseRepr 10 o (by omega) c hc
  exact digitChar_isHexGo d (by omega)

theorem v6Loop_embedded_v4 (fuel : Nat) (low : Nat) (hlow : low < 2 ^ 32)
    (acc : List Nat) (ell : Option Nat) (hacc : acc.length < 16)
    (hok : ¬(ell = none ∧ acc.length ≠ 12)) (hroom : ¬16 < acc.length + 4) :
    v6Loop (fuel + 1) (v4Chars low) acc ell = some (acc ++ beBytes 4 low, ell, []) := by
  have hv4 : v4Chars low = baseRepr 10 (low / 2 ^ 24 % 256) ++
      ('.' :: (baseRepr 10 (low / 2 ^ 16 % 256) ++ ('.' :: (baseRepr 10 (low / 2 ^ 8 % 256) ++
        ('.' :: baseRepr 10 (low % 256)))))) := rfl
  have hsplit0 := takeWhile_append_stop isHexDigitGo (baseRepr 10 (low / 2 ^ 24 % 256))
    ('.' :: (baseRepr 10 (low / 2 ^ 16 % 256) ++ ('.' :: (baseRepr 10 (low / 2 ^ 8 % 256) ++
      ('.' :: baseRepr 10 (low % 256))))))
    (baseRepr10_hexChars _) (by intro x hx; injection hx with h; rw [← h]; decide)
  have ht : (v4Chars low).takeWhile isHexDigitGo = baseRepr 10 (low / 2 ^ 24 % 256) := by
    rw [hv4]
    exact hsplit0.1
  have hd : (v4Chars low).dropWhile isHexDigitGo =
      '.' :: (baseRepr 10 (low / 2 ^ 16 % 256) ++ ('.' :: (baseRepr 10 (low / 2 ^ 8 % 256) ++
        ('.' :: baseRepr 10 (low % 256))))) := by
    rw [hv4]
    exact hsplit0.2
  have hlen3 : ¬4 < (baseRepr 10 (low / 2 ^ 24 % 256)).length := by
    have h := baseRepr_length_le 10 (low / 2 ^ 24 % 256) 3 (by omega) (by omega)
      (by norm_num; omega)
    omega
  simp only [v6Loop, if_neg (by omega : ¬16 ≤ acc.length), ht, hd]
  rw [if_neg (by simpa using baseRepr_length_pos 10 _), if_neg hlen3,
    if_neg hok, if_neg hroom, parseIPv4_v4Chars low hlow]

theorem mem_joinColon (gs : List (List Char)) :
    ∀ c ∈ joinColon gs, c = ':' ∨ ∃ g ∈ gs, c ∈ g := by
  induction gs with
  | nil => intro c hc; simp [joinColon] at hc
  | cons g gs ih =>
    intro c hc
    cases gs with
    | nil =>
      right
      exact ⟨g, by simp, hc⟩
    | cons g' gs' =>
      rw [joinColon_cons2] at hc
      rcases List.mem_append.mp hc with hc | hc
      · exact Or.inr ⟨g, by simp, hc⟩
      · rcases List.mem_cons.mp hc with rfl | hc
        · exact Or.inl rfl
        · rcases ih c hc with h | ⟨g0, hg0, hcg⟩
          · exact Or.inl h
          · exact Or.inr ⟨g0, by simp [hg0], hcg⟩

theorem mem_v4Chars (v : Nat) :
    ∀ c ∈ v4Chars v, c = '.' ∨ ∃ d, d < 16 ∧ c = Nat.digitChar d := by
  intro c hc
  rw [v4Chars] at hc
  simp only [List.mem_append, List.mem_cons] at hc
  have hoct : ∀ o, c ∈ baseRepr 10 o → ∃ d, d < 16 ∧ c = Nat.digitChar d := by
    intro o hco
    obtain ⟨d, hd, rfl⟩ := mem_baseRepr 10 o (by omega) c hco
    exact ⟨d, by omega, rfl⟩
  rcases hc with h | rfl | h | rfl | h | rfl | h
  · exact Or.inr (hoct _ h)
  · exact Or.inl rfl
  · exact Or.inr (hoct _ h)
  · exact Or.inl rfl
  · exact Or.inr (hoct _ h)
  · exact Or.inl rfl
  · exact Or.inr (hoct _ h)

theorem mem_v6Chars (v : Nat) :
    ∀ c ∈ v6Chars v, c = ':' ∨ c = '.' ∨ ∃ d, d < 16 ∧ c = Nat.digitChar d := by
  intro c hc
  rw [v6Chars] at hc
  by_cases h46 : is4In6 v
  · rw [if_pos h46] at hc
    simp only [List.mem_cons] at hc
    have hf : ('f' : Char) = Nat.digitChar 15 := by decide
    rcases hc with rfl | rfl | rfl | rfl | rfl | rfl | rfl | hc
    · exact Or.inl rfl
    · exact Or.inl rfl
    · exact Or.inr (Or.inr ⟨15, by omega, hf⟩)
    · exact Or.inr (Or.inr ⟨15, by omega, hf⟩)
    · exact Or.inr (Or.inr ⟨15, by omega, hf⟩)
    · exact Or.inr (Or.inr ⟨15, by omega, hf⟩)
    · exact Or.inl rfl
    · rcases mem_v4Chars _ c hc with h | h
      · exact Or.inr (Or.inl h)
      · exact Or.inr (Or.inr h)
  · rw [if_neg h46] at hc
    have hgrp : ∀ (ws : List Nat), c ∈ joinColon (ws.map (baseRepr 16)) →
        c = ':' ∨ ∃ d, d < 16 ∧ c = Nat.digitChar d := by
      intro ws hcw
      rcases mem_joinColon _ c hcw with h | ⟨g, hg, hcg⟩
      · exact Or.inl h
      · obtain ⟨w, _, rfl⟩ := List.mem_map.mp hg
        exact Or.inr (mem_baseRepr 16 w (by omega) c hcg)
    simp only at hc
    by_cases hzr : (zeroRun (hextets v)).1 = 255
    · rw [if_pos hzr] at hc
      rcases hgrp _ hc with h | h
      · exact Or.inl h
      · exact Or.inr (Or.inr h)
    · rw [if_neg hzr] at hc
      simp only [List.mem_append, List.mem_cons] at hc
      rcases hc with h | rfl | rfl | h
      · rcases hgrp _ h with h | h
        · exact Or.inl h
        · exact Or.inr (Or.inr h)
      · exact Or.inl rfl
      · exact Or.inl rfl
      · rcases hgrp _ h with h | h
        · exact Or.inl h
        · exact Or.inr (Or.inr h)

theorem v6Chars_no_percent (v : Nat) : (v6Chars v).any (fun c => c = '%') = false := by
  rw [List.any_eq_false]
  intro c hc
  rcases mem_v6Chars v c hc with rfl | rfl | ⟨d, hd, rfl⟩
  · decide
  · decide
  · have := digitChar_not_special d hd
    simp only [decide_eq_true_eq]
    intro h
    exact this (Or.inr (Or.inr h))

theorem parseIPv6_not_dcolon (s : List Char) (hnp : s.any (fun c => c = '%') = false)
    (c : Char) (t : List Char) (hs : s = c :: t) (hc : c ≠ ':') :
    parseIPv6 s = v6Finish (v6Loop 17 s [] none) := by
  rw [parseIPv6, if_neg (by simp [hnp]), if_neg]
  intro hcond
  apply hc
  subst hs
  simpa using congrArg (fun l => l.headD 'a') hcond.2

theorem parseIPv6_dcolon (s : List Char) (hnp : s.any (fun c => c = '%') = false)
    (rest : List Char) (hs : s = ':' :: ':' :: rest) (hrest : rest ≠ []) :
    parseIPv6 s = v6Finish (v6Loop 17 rest [] (some 0)) := by
  subst hs
  rw [parseIPv6, if_neg (by simp [hnp]),
    if_pos ⟨by simp only [List.length_cons]; omega, rfl⟩]
  rw [show (':' :: ':' :: rest).drop 2 = rest from rfl, if_neg hrest]

theorem bytesToNat_replicate_zero (k : Nat) : bytesToNat (List.replicate k 0) = 0 := by
  induction k with
  | zero => rfl
  | succ k ih =>
    rw [List.replicate_succ]
    show List.foldl (fun acc b => acc * 256 + b) (0 * 256 + 0) (List.replicate k 0) = 0
    have h0 : (0 : Nat) * 256 + 0 = 0 := by omega
    rw [h0]
    exact ih

theorem v6Finish_ell (acc : List Nat) (p : Nat) (hlen : acc.length < 16) :
    v6Finish (some (acc, some p, [])) =
      some (bytesToNat (acc.take p ++ List.replicate (16 - acc.length) 0 ++ acc.drop p)) := by
  simp only [v6Finish]
  rw [if_neg (by simp), if_pos hlen]

theorem v6Finish_full (acc : List Nat) (hlen : ¬acc.length < 16) :
    v6Finish (some (acc, none, [])) = some (bytesToNat acc) := by
  simp only [v6Finish]
  rw [if_neg (by simp), if_neg hlen, if_neg (by simp)]

theorem words_decomp (v s l : Nat) (hv : v < 2 ^ 128) (hsl : s + l ≤ 8)
    (hz : ∀ m, m < l → (hextets v).getD (s + m) 1 = 0) :
    wordsToNat ((hextets v).take s ++ (List.replicate l 0 ++ (hextets v).drop (s + l))) = v := by
  rw [← take_replicate_drop (hextets v) s l (by rw [hextets_length]; omega) hz]
  exact wordsToNat_hextets v hv

theorem parseIPv6_v6Chars_4in6 (v : Nat) (hv : v < 2 ^ 128) (h46 : is4In6 v = true) :
    parseIPv6 (v6Chars v) = some v := by
  have hnp := v6Chars_no_percent v
  have hlow : v % 2 ^ 32 < 2 ^ 32 := Nat.mod_lt _ (by norm_num)
  have hffff : (['f', 'f', 'f', 'f'] : List Char) = baseRepr 16 65535 := by decide
  have hform : v6Chars v = ':' :: ':' ::
      (baseRepr 16 65535 ++ ':' :: v4Chars (v % 2 ^ 32)) := by
    rw [v6Chars, if_pos h46, ← hffff]
    rfl
  rw [parseIPv6_dcolon (v6Chars v) hnp (baseRepr 16 65535 ++ ':' :: v4Chars (v % 2 ^ 32))
    hform (baseRepr_append_ne_nil 16 65535 _)]
  obtain ⟨c, t, hct, _, hns⟩ := v4Chars_head (v % 2 ^ 32)
  have hcol : c ≠ ':' := fun h => hns (Or.inr (Or.inl h))
  rw [hct, show (17 : Nat) = 16 + 1 from rfl,
    v6Loop_group_colon 16 65535 (by omega) c t hcol [] (some 0) (by simp), ← hct,
    show (16 : Nat) = 15 + 1 from rfl,
    v6Loop_embedded_v4 15 (v % 2 ^ 32) hlow ([] ++ [65535 / 256, 65535 % 256]) (some 0)
      (by simp) (by simp) (by simp only [List.nil_append, List.length_append,
        List.length_cons, List.length_nil]; omega)]
  have hlen : (([] ++ [65535 / 256, 65535 % 256] : List Nat) ++ beBytes 4 (v % 2 ^ 32)).length
      = 6 := by
    simp [beBytes_length]
  rw [v6Finish_ell _ 0 (by rw [hlen]; omega), hlen]
  have htake : (([] ++ [65535 / 256, 65535 % 256] : List Nat) ++
      beBytes 4 (v % 2 ^ 32)).take 0 = [] := rfl
  have hdrop : (([] ++ [65535 / 256, 65535 % 256] : List Nat) ++
      beBytes 4 (v % 2 ^ 32)).drop 0 = [65535 / 256, 65535 % 256] ++ beBytes 4 (v % 2 ^ 32) := by
    simp
  rw [htake, hdrop, List.nil_append]
  have hval : bytesToNat (List.replicate (16 - 6) 0 ++
      ([65535 / 256, 65535 % 256] ++ beBytes 4 (v % 2 ^ 32))) = v := by
    rw [bytesToNat_append, bytesToNat_replicate_zero,
      bytesToNat_append, bytesToNat_beBytes 4 (v % 2 ^ 32) (by norm_num at hlow ⊢; omega),
      beBytes_length]
    have hb2 : bytesToNat [65535 / 256, 65535 % 256] = 65535 := by decide
    rw [hb2]
    have hdm := Nat.div_add_mod v (2 ^ 32)
    have h46' : v / 2 ^ 32 = 65535 := by
      rw [is4In6] at h46
      exact beq_iff_eq.mp h46
    have hp : (256 : Nat) ^ 4 = 2 ^ 32 := by norm_num
    rw [hp]
    omega
  rw [hval]

theorem hextets_decomp (v : Nat) : ∃ w0 w1 ws', hextets v = w0 :: w1 :: ws' := by
  have hlen := hextets_length v
  obtain ⟨w0, rest, h0⟩ := List.exists_cons_of_ne_nil
    (show hextets v ≠ [] by intro h; rw [h] at hlen; simp at hlen)
  obtain ⟨w1, ws', h1⟩ := List.exists_cons_of_ne_nil
    (show rest ≠ [] by intro h; rw [h0, h] at hlen; simp at hlen)
  exact ⟨w0, w1, ws', by rw [h0, h1]⟩

theorem parseIPv6_v6Chars_norun (v : Nat) (hv : v < 2 ^ 128) (h46 : ¬is4In6 v = true)
    (hzr : zeroRun (hextets v) = (255, 255)) :
    parseIPv6 (v6Chars v) = some v := by
  have hnp := v6Chars_no_percent v
  have hform : v6Chars v = joinColon ((hextets v).map (baseRepr 16)) := by
    rw [v6Chars, if_neg h46]
    simp only
    rw [if_pos (by rw [hzr])]
  obtain ⟨w0, w1, ws', hws⟩ := hextets_decomp v
  obtain ⟨c, t, hct', _, hcol, _, _⟩ := joinColon_map_head w0 (w1 :: ws')
  have hct : joinColon ((hextets v).map (baseRepr 16)) = c :: t := by
    rw [hws]
    exact hct'
  rw [parseIPv6_not_dcolon (v6Chars v) hnp c t (by rw [hform, hct]) hcol, hform]
  rw [v6Loop_groups_end (hextets v) (hextets_lt v) 17 [] none (by rw [hws]; simp)
    (by rw [hextets_length]; omega) (by rw [hextets_length]; simp)]
  have hlen : ([] ++ wordsBytes (hextets v)).length = 16 := by
    rw [List.nil_append, wordsBytes_length, hextets_length]
  rw [List.nil_append, v6Finish_full _ (by rw [wordsBytes_length, hextets_length]; omega),
    bytesToNat_wordsBytes, wordsToNat_hextets v hv]

theorem parseIPv6_v6Chars_run (v : Nat) (hv : v < 2 ^ 128) (h46 : ¬is4In6 v = true)
    (s l : Nat) (hl2 : 2 ≤ l) (hsl : s + l ≤ 8)
    (hz : ∀ m, m < l → (hextets v).getD (s + m) 1 = 0)
    (hzr : zeroRun (hextets v) = (s, s + l)) :
    parseIPv6 (v6Chars v) = some v := by
  have hnp := v6Chars_no_percent v
  have hform : v6Chars v = joinColon (((hextets v).take s).map (baseRepr 16)) ++
      ':' :: ':' :: joinColon (((hextets v).drop (s + l)).map (baseRepr 16)) := by
    rw [v6Chars, if_neg h46]
    simp only
    rw [if_neg (by rw [hzr]; simp; omega), hzr]
  have hpre_len : ((hextets v).take s).length = s := by
    rw [List.length_take, hextets_length]
    omega
  have hsuf_len : ((hextets v).drop (s + l)).length = 8 - (s + l) := by
    rw [List.length_drop, hextets_length]
  have hpre_lt : ∀ w ∈ (hextets v).take s, w < 65536 := fun w hw =>
    hextets_lt v w (List.mem_of_mem_take hw)
  have hsuf_lt : ∀ w ∈ (hextets v).drop (s + l), w < 65536 := fun w hw =>
    hextets_lt v w (List.mem_of_mem_drop hw)
  by_cases hs0 : s = 0
  · subst hs0
    have hpre : (hextets v).take 0 = [] := rfl
    by_cases hl8 : l = 8
    · subst hl8
      have hsuf : (hextets v).drop (0 + 8) = [] := by
        apply List.eq_nil_of_length_eq_zero
        rw [hsuf_len]
      have hform2 : v6Chars v = [':', ':'] := by
        rw [hform, hpre, hsuf]
        rfl
      have hv0 : v = 0 := by
        have hdec := words_decomp v 0 8 hv (by omega) hz
        rw [hpre, hsuf] at hdec
        rw [← hdec]
        decide
      rw [hform2, hv0, parseIPv6]
      rfl
    · have hsufne : (hextets v).drop (0 + l) ≠ [] := by
        intro h
        rw [h] at hsuf_len
        simp at hsuf_len
        omega
      obtain ⟨s0, suft, hsuf0⟩ : ∃ s0 suft, (hextets v).drop (0 + l) = s0 :: suft := by
        cases h : (hextets v).drop (0 + l) with
        | nil => exact absurd h hsufne
        | cons s0 suft => exact ⟨s0, suft, rfl⟩
      obtain ⟨cs, ts, hcts', _, _, _, _⟩ := joinColon_map_head s0 suft
      have hcts : joinColon (((hextets v).drop (0 + l)).map (baseRepr 16)) = cs :: ts := by
        rw [hsuf0]
        exact hcts'
      have hform2 : v6Chars v = ':' :: ':' ::
          joinColon (((hextets v).drop (0 + l)).map (baseRepr 16)) := by
        rw [hform, hpre]
        rfl
      rw [parseIPv6_dcolon (v6Chars v) hnp _ hform2 (by rw [hcts]; simp)]
      rw [v6Loop_groups_end ((hextets v).drop (0 + l)) hsuf_lt 17 [] (some 0) hsufne
        (by rw [hsuf_len]; omega) (by simp only [List.length_nil, hsuf_len]; omega)]
      have hblen : (([] : List Nat) ++ wordsBytes ((hextets v).drop (0 + l))).length =
          2 * (8 - l) := by
        rw [List.nil_append, wordsBytes_length, hsuf_len]
        omega
      rw [List.nil_append, v6Finish_ell _ 0
        (by rw [wordsBytes_length, hsuf_len]; omega)]
      have htake : (wordsBytes ((hextets v).drop (0 + l))).take 0 = [] := rfl
      have hdrop : (wordsBytes ((hextets v).drop (0 + l))).drop 0 =
          wordsBytes ((hextets v).drop (0 + l)) := rfl
      rw [htake, hdrop, List.nil_append, wordsBytes_length, hsuf_len]
      have harith : 16 - 2 * (8 - (0 + l)) = 2 * l := by omega
      rw [harith, ← wordsBytes_replicate_zero l, ← wordsBytes_append,
        bytesToNat_wordsBytes]
      have hdec := words_decomp v 0 l hv (by omega) hz
      rw [hpre, List.nil_append] at hdec
      rw [hdec]
  · have hprene : (hextets v).take s ≠ [] := by
      intro h
      rw [h] at hpre_len
      simp at hpre_len
      omega
    obtain ⟨p0, pret, hpre0⟩ : ∃ p0 pret, (hextets v).take s = p0 :: pret := by
      cases h : (hextets v).take s with
      | nil => exact absurd h hprene
      | cons p0 pret => exact ⟨p0, pret, rfl⟩
    obtain ⟨c, t, hct', _, hcol, _, _⟩ := joinColon_map_head p0 pret
    have hct : joinColon (((hextets v).take s).map (baseRepr 16)) = c :: t := by
      rw [hpre0]
      exact hct'
    have hchead : v6Chars v = c :: (t ++
        ':' :: ':' :: joinColon (((hextets v).drop (s + l)).map (baseRepr 16))) := by
      rw [hform, hct]
      rfl
    rw [parseIPv6_not_dcolon (v6Chars v) hnp c _ hchead hcol, hform]
    by_cases hsufnil : (hextets v).drop (s + l) = []
    · have hform3 : joinColon (((hextets v).take s).map (baseRepr 16)) ++
          ':' :: ':' :: joinColon (((hextets v).drop (s + l)).map (baseRepr 16)) =
          joinColon (((hextets v).take s).map (baseRepr 16)) ++ [':', ':'] := by
        rw [hsufnil]
        rfl
      have hl8 : s + l = 8 := by
        have := hsuf_len
        rw [hsufnil] at this
        simp at this
        omega
      rw [hform3, v6Loop_groups_dcolon_end ((hextets v).take s) hpre_lt 17 [] hprene
        (by rw [hpre_len]; omega) (by simp only [List.length_nil, hpre_len]; omega)]
      rw [List.nil_append, v6Finish_ell _ _
        (by rw [wordsBytes_length, hpre_len]; omega)]
      rw [List.take_length, List.drop_length, List.append_nil, wordsBytes_length, hpre_len]
      have harith : 16 - 2 * s = 2 * l := by omega
      rw [harith, ← wordsBytes_replicate_zero l, ← wordsBytes_append, bytesToNat_wordsBytes]
      have hdec := words_decomp v s l hv (by omega) hz
      rw [hsufnil, List.append_nil] at hdec
      rw [hdec]
    · obtain ⟨s0, suft, hsuf0⟩ : ∃ s0 suft, (hextets v).drop (s + l) = s0 :: suft := by
        cases h : (hextets v).drop (s + l) with
        | nil => exact absurd h hsufnil
        | cons s0 suft => exact ⟨s0, suft, rfl⟩
      rw [v6Loop_groups_dcolon_mid ((hextets v).take s) hpre_lt
        ((hextets v).drop (s + l)) hsuf_lt 17 [] hprene hsufnil
        (by rw [hpre_len, hsuf_len]; omega)
        (by simp only [List.length_nil, hpre_len, hsuf_len]; omega)]
      rw [List.nil_append, v6Finish_ell _ _
        (by rw [List.length_append, wordsBytes_length, wordsBytes_length,
          hpre_len, hsuf_len]; omega)]
      rw [List.take_left, List.drop_left]
      rw [List.length_append, wordsBytes_length, wordsBytes_length, hpre_len, hsuf_len]
      have harith : 16 - (2 * s + 2 * (8 - (s + l))) = 2 * l := by omega
      rw [harith, ← wordsBytes_replicate_zero l]
      rw [List.append_assoc, ← wordsBytes_append, ← wordsBytes_append, bytesToNat_wordsBytes]
      have hdec := words_decomp v s l hv (by omega) hz
      rw [hdec]

theorem parseIPv6_v6Chars (v : Nat) (hv : v < 2 ^ 128) :
    parseIPv6 (v6Chars v) = some v := by
  by_cases h46 : is4In6 v = true
  · exact parseIPv6_v6Chars_4in6 v hv h46
  · rcases zeroRun_cases (hextets v) with hzr | ⟨s, l, hl2, hsl, hz, hzr⟩
    · exact parseIPv6_v6Chars_norun v hv h46 hzr
    · exact parseIPv6_v6Chars_run v hv h46 s l hl2 (by rw [hextets_length] at hsl; omega)
        hz hzr

theorem joinColon_cons_decomp (g : List Char) (gs : List (List Char)) :
    joinColon (g :: gs) = g ++ (if gs = [] then [] else ':' :: joinColon gs) := by
  cases gs with
  | nil => simp [joinColon]
  | cons g' gs' => rw [joinColon_cons2, if_neg (by simp)]

theorem v6Chars_colon_split (v : Nat) :
    ∃ A B, v6Chars v = A ++ ':' :: B ∧ ∀ c ∈ A, ¬(c = '.' ∨ c = ':' ∨ c = '%') := by
  by_cases h46 : is4In6 v = true
  · refine ⟨[], ':' :: 'f' :: 'f' :: 'f' :: 'f' :: ':' :: v4Chars (v % 2 ^ 32), ?_, by simp⟩
    rw [v6Chars, if_pos h46]
    rfl
  · rcases zeroRun_cases (hextets v) with hzr | ⟨s, l, hl2, hsl, hz, hzr⟩
    · obtain ⟨w0, w1, ws', hws⟩ := hextets_decomp v
      refine ⟨baseRepr 16 w0, joinColon ((w1 :: ws').map (baseRepr 16)), ?_,
        baseRepr_not_special 16 w0 (by omega) (by omega)⟩
      rw [v6Chars, if_neg h46]
      simp only
      rw [if_pos (by rw [hzr]), hws, List.map_cons, List.map_cons, joinColon_cons2,
        ← List.map_cons]
    · have hform : v6Chars v = joinColon (((hextets v).take s).map (baseRepr 16)) ++
          ':' :: ':' :: joinColon (((hextets v).drop (s + l)).map (baseRepr 16)) := by
        rw [v6Chars, if_neg h46]
        simp only
        rw [if_neg (by rw [hzr]; simp; have := hextets_length v; omega), hzr]
      by_cases hs0 : s = 0
      · subst hs0
        refine ⟨[], ':' :: joinColon (((hextets v).drop (0 + l)).map (baseRepr 16)), ?_,
          by simp⟩
        rw [hform]
        rfl
      · have hprene : (hextets v).take s ≠ [] := by
          intro h
          have hlen := hextets_length v
          have := congrArg List.length h
          rw [List.length_take, hlen] at this
          simp at this
          omega
        obtain ⟨p0, pret, hpre0⟩ := List.exists_cons_of_ne_nil hprene
        rw [hform, hpre0, List.map_cons, joinColon_cons_decomp]
        by_cases hpret : pret.map (baseRepr 16) = []
        · rw [if_pos hpret, List.append_nil]
          exact ⟨baseRepr 16 p0,
            ':' :: joinColon (((hextets v).drop (s + l)).map (baseRepr 16)),
            rfl, baseRepr_not_special 16 p0 (by omega) (by omega)⟩
        · rw [if_neg hpret]
          exact ⟨baseRepr 16 p0,
            joinColon (pret.map (baseRepr 16)) ++
              ':' :: ':' :: joinColon (((hextets v).drop (s + l)).map (baseRepr 16)),
            by rw [List.append_assoc]
               rfl,
            baseRepr_not_special 16 p0 (by omega) (by omega)⟩

theorem firstSpecial_v6Chars (v : Nat) : firstSpecial (v6Chars v) = some ':' := by
  obtain ⟨A, B, hform, hA⟩ := v6Chars_colon_split v
  rw [hform, firstSpecial_append A _ hA, firstSpecial, if_pos (Or.inr (Or.inl rfl))]

theorem parseAddrGo_v6Chars (v : Nat) (hv : v < 2 ^ 128) :
    parseAddrGo (v6Chars v) = some (Addr.v6 v) := by
  rw [parseAddrGo, firstSpecial_v6Chars]
  show Option.map Addr.v6 (parseIPv6 (v6Chars v)) = some (Addr.v6 v)
  rw [parseIPv6_v6Chars v hv]
  rfl

theorem parseAddrGo_addrChars (a : Addr) (hwf : a.wf) : parseAddrGo (addrChars a) = some a := by
  cases a with
  | v4 v => exact parseAddrGo_v4Chars v hwf
  | v6 v => exact parseAddrGo_v6Chars v hwf

theorem digitChar_ne_plus : ∀ d, d < 16 → Nat.digitChar d ≠ '+' := by decide

theorem digitChar_ne_slash : ∀ d, d < 16 → Nat.digitChar d ≠ '/' := by decide

theorem addrChars_ne_slash (a : Addr) : ∀ c ∈ addrChars a, c ≠ '/' := by
  intro c hc
  cases a with
  | v4 v =>
    rcases mem_v4Chars v c hc with rfl | ⟨d, hd, rfl⟩
    · decide
    · exact digitChar_ne_slash d hd
  | v6 v =>
    rcases mem_v6Chars v c hc with rfl | rfl | ⟨d, hd, rfl⟩
    · decide
    · decide
    · exact digitChar_ne_slash d hd

theorem lastIdxOf_not_mem (c : Char) (s : List Char) (h : c ∉ s) : lastIdxOf c s = none := by
  induction s with
  | nil => rfl
  | cons x xs ih =>
    rw [lastIdxOf, ih (fun hm => h (by simp [hm]))]
    rw [if_neg (fun he => h (by simp [he.symm]))]

theorem lastIdxOf_append_slash (xs bs : List Char) (hx : '/' ∉ xs) (hb : '/' ∉ bs) :
    lastIdxOf '/' (xs ++ '/' :: bs) = some xs.length := by
  induction xs with
  | nil =>
    show lastIdxOf '/' ('/' :: bs) = some 0
    rw [lastIdxOf, lastIdxOf_not_mem '/' bs hb, if_pos rfl]
  | cons x xs ih =>
    show lastIdxOf '/' (x :: (xs ++ '/' :: bs)) = some (xs.length + 1)
    rw [lastIdxOf, ih (fun hm => hx (by simp [hm]))]

theorem atoiNonNeg_baseRepr (n : Nat) : atoiNonNeg (baseRepr 10 n) = some n := by
  obtain ⟨c0, t0, h0⟩ := List.exists_cons_of_ne_nil (baseRepr_ne_nil 10 n)
  have hc0 : c0 ≠ '+' := by
    obtain ⟨d, hd, hdc⟩ := mem_baseRepr 10 n (by omega) c0 (by rw [h0]; simp)
    rw [hdc]
    exact digitChar_ne_plus d (by omega)
  have hdig : (baseRepr 10 n).all Char.isDigit = true := by
    rw [List.all_eq_true]
    intro c hc
    obtain ⟨d, hd, rfl⟩ := mem_baseRepr 10 n (by omega) c hc
    exact digitChar_isDigit d hd
  rw [atoiNonNeg, h0]
  split
  case isTrue =>
    rw [← h0, parseBaseChars_baseRepr 10 n (by omega) (by omega)]
  case isFalse hcond =>
    exact absurd ⟨by simp, by rw [← h0]; exact hdig⟩ hcond
  case x_1 =>
    intro rest heq
    rw [h0] at heq
    injection heq with ha hb
    exact hc0 ha

theorem parsePfx_pfxChars (p : Pfx) (hwf : p.wf) : parsePfx (pfxChars p) = some p := by
  have hnos : '/' ∉ addrChars p.addr := fun h => addrChars_ne_slash p.addr '/' h rfl
  have hnob : '/' ∉ baseRepr 10 p.bits := by
    intro h
    obtain ⟨d, hd, hdc⟩ := mem_baseRepr 10 p.bits (by omega) '/' h
    exact digitChar_ne_slash d (by omega) hdc.symm
  rw [parsePfx, pfxChars, lastIdxOf_append_slash _ _ hnos hnob]
  have htake : (addrChars p.addr ++ '/' :: baseRepr 10 p.bits).take (addrChars p.addr).length
      = addrChars p.addr := List.take_left _ _
  have hdrop : (addrChars p.addr ++ '/' :: baseRepr 10 p.bits).drop
      ((addrChars p.addr).length + 1) = baseRepr 10 p.bits := by
    rw [show addrChars p.addr ++ '/' :: baseRepr 10 p.bits =
      (addrChars p.addr ++ ['/']) ++ baseRepr 10 p.bits by simp]
    rw [show (addrChars p.addr).length + 1 = (addrChars p.addr ++ ['/']).length by simp]
    exact List.drop_left _ _
  show parsePfxAt (addrChars p.addr ++ '/' :: baseRepr 10 p.bits)
      (addrChars p.addr).length = some p
  rw [parsePfxAt, htake, hdrop, parseAddrGo_addrChars p.addr hwf.1,
    atoiNonNeg_baseRepr p.bits]
  show (if p.addr.bitWidth < p.bits then none else some (Pfx.mk p.addr p.bits)) = some p
  rw [if_neg (by have := hwf.2; omega)]

/-- C6: rendering a prefix to CIDR text, re-parsing that text and rendering
the first address of the result gives the same text as rendering the first
address of the original prefix. -/
theorem C6_renderParseRoundTrip (p : Pfx) (hwf : p.wf) :
    (parsePfxStr p.str).map (fun q => q.addr.str) = some p.addr.str := by
  have h : parsePfxStr p.str = some p := parsePfx_pfxChars p hwf
  rw [h]
  rfl

/-- C6 witness: the 16-byte prefix 2001:db8:85a3:42::/64. -/
theorem C6_renderParseRoundTrip_witness :
    (Pfx.mk (Addr.v6 42540766452641155289225172512357220352) 64).wf ∧
    (parsePfxStr (Pfx.mk (Addr.v6 42540766452641155289225172512357220352) 64).str).map
        (fun q => q.addr.str) =
      some (Pfx.mk (Addr.v6 42540766452641155289225172512357220352) 64).addr.str :=
  ⟨by decide, C6_renderParseRoundTrip _ (by decide)⟩

/-! ## Parsed prefixes are well formed -/

theorem bytesToNat_cons (b : Nat) (bs : List Nat) :
    bytesToNat (b :: bs) = b * 256 ^ bs.length + bytesToNat bs := by
  show List.foldl (fun a x => a * 256 + x) 0 (b :: bs) = _
  rw [List.foldl_cons]
  have h4 : (0 : Nat) * 256 + b = b := by omega
  rw [h4, foldl_mul_add 256 bs b]
  rfl

theorem bytesToNat_lt (bs : List Nat) (h : ∀ x ∈ bs, x < 256) :
    bytesToNat bs < 256 ^ bs.length := by
  induction bs with
  | nil => simp [bytesToNat]
  | cons b bs ih =>
    have hb := h b (by simp)
    have ih' := ih (fun x hx => h x (by simp [hx]))
    rw [bytesToNat_cons]
    calc b * 256 ^ bs.length + bytesToNat bs
        < b * 256 ^ bs.length + 256 ^ bs.length := Nat.add_lt_add_left ih' _
      _ = (b + 1) * 256 ^ bs.length := by ring
      _ ≤ 256 * 256 ^ bs.length := Nat.mul_le_mul_right _ (by omega)
      _ = 256 ^ (b :: bs).length := by
          rw [List.length_cons, pow_succ]
          ring

theorem charVal_lt (c : Char) : charVal c < 16 := by
  have h48 : '0'.toNat = 48 := rfl
  have h97 : 'a'.toNat = 97 := rfl
  have h65 : 'A'.toNat = 65 := rfl
  rw [charVal]
  split
  · rename_i h
    have h9 : c.toNat ≤ 57 := by
      have := h.2
      rw [Char.le_def] at this
      exact this
    omega
  · split
    · rename_i h
      have hf : c.toNat ≤ 102 := by
        have := h.2
        rw [Char.le_def] at this
        exact this
      have ha : 97 ≤ c.toNat := by
        have := h.1
        rw [Char.le_def] at this
        exact this
      omega
    · split
      · rename_i h
        have hf : c.toNat ≤ 70 := by
          have := h.2
          rw [Char.le_def] at this
          exact this
        have ha : 65 ≤ c.toNat := by
          have := h.1
          rw [Char.le_def] at this
          exact this
        omega
      · omega

theorem parseBaseChars_lt (b : Nat) (hb : 16 ≤ b) (cs : List Char) :
    parseBaseChars 16 cs < 16 ^ cs.length := by
  induction cs with
  | nil => simp [parseBaseChars]
  | cons c cs ih =>
    show List.foldl (fun a x => a * 16 + charVal x) 0 (c :: cs) < _
    rw [List.foldl_cons]
    have h0 : (0 : Nat) * 16 + charVal c = charVal c := by omega
    rw [h0, foldl_mul_add_char 16 cs (charVal c)]
    have hcv := charVal_lt c
    have ih' : List.foldl (fun a x => a * 16 + charVal x) 0 cs < 16 ^ cs.length := ih
    calc charVal c * 16 ^ cs.length + List.foldl (fun a x => a * 16 + charVal x) 0 cs
        < charVal c * 16 ^ cs.length + 16 ^ cs.length := Nat.add_lt_add_left ih' _
      _ = (charVal c + 1) * 16 ^ cs.length := by ring
      _ ≤ 16 * 16 ^ cs.length := Nat.mul_le_mul_right _ (by omega)
      _ = 16 ^ (c :: cs).length := by
          rw [List.length_cons, pow_succ]
          ring

theorem hexAcc_lt (ds : List Char) (h : ds.length ≤ 4) : hexAcc ds < 65536 := by
  have h1 : hexAcc ds < 16 ^ ds.length := parseBaseChars_lt 16 (by omega) ds
  have h2 : (16 : Nat) ^ ds.length ≤ 16 ^ 4 := Nat.pow_le_pow_right (by omega) h
  norm_num at h2
  omega

theorem v4Fields_bound : ∀ (s : List Char) (val digLen pos : Nat) (acc : List Nat)
    (fs : List Nat),
    val ≤ 255 → (∀ x ∈ acc, x ≤ 255) → acc.length = pos → pos ≤ 3 →
    v4Fields s val digLen pos acc = some fs →
    (∀ x ∈ fs, x ≤ 255) ∧ fs.length = 4 := by
  intro s
  induction s with
  | nil =>
    intro val digLen pos acc fs hval hacc hlen hpos heq
    rw [v4Fields] at heq
    split at heq
    · exact absurd heq (by simp)
    · rename_i hpos3
      injection heq with heq
      subst heq
      constructor
      · intro x hx
        rcases List.mem_append.mp hx with hx | hx
        · exact hacc x (List.mem_reverse.mp hx)
        · simp at hx
          omega
      · simp only [List.length_append, List.length_reverse, List.length_cons,
          List.length_nil, hlen]
        omega
  | cons c rest ih =>
    intro val digLen pos acc fs hval hacc hlen hpos heq
    rw [v4Fields] at heq
    split at heq
    · split at heq
      · exact absurd heq (by simp)
      · split at heq
        · exact absurd heq (by simp)
        · rename_i hle
          exact ih _ _ _ _ _ (by omega) hacc hlen hpos heq
    · split at heq
      · split at heq
        · exact absurd heq (by simp)
        · split at heq
          · exact absurd heq (by simp)
          · rename_i hpos3
            refine ih _ _ _ _ _ (by omega) ?_ ?_ (by omega) heq
            · intro x hx
              rcases List.mem_cons.mp hx with rfl | hx
              · exact hval
              · exact hacc x hx
            · simp [hlen]
      · exact absurd heq (by simp)

theorem parseIPv4_lt (s : List Char) (w : Nat) (h : parseIPv4 s = some w) : w < 2 ^ 32 := by
  rw [parseIPv4] at h
  cases hv : v4Fields s 0 0 0 [] with
  | none => rw [hv] at h; exact absurd h (by simp)
  | some fs =>
    rw [hv] at h
    have hw : bytesToNat fs = w := by
      injection h
    obtain ⟨hmem, hlen⟩ := v4Fields_bound s 0 0 0 [] fs (by omega) (by simp) rfl
      (by omega) hv
    have hb := bytesToNat_lt fs (fun x hx => by have := hmem x hx; omega)
    rw [hlen] at hb
    rw [← hw]
    norm_num at hb ⊢
    omega

theorem v6Loop_bound : ∀ (fuel : Nat) (s : List Char) (acc : List Nat) (ell : Option Nat)
    (bytes : List Nat) (ell' : Option Nat) (rem : List Char),
    (∀ x ∈ acc, x < 256) → acc.length % 2 = 0 → acc.length ≤ 16 →
    (∀ q, ell = some q → q ≤ acc.length) →
    v6Loop fuel s acc ell = some (bytes, ell', rem) →
    (∀ x ∈ bytes, x < 256) ∧ bytes.length % 2 = 0 ∧ bytes.length ≤ 16 ∧
      (∀ q, ell' = some q → q ≤ bytes.length) := by
  intro fuel
  induction fuel with
  | zero =>
    intro s acc ell bytes ell' rem _ _ _ _ heq
    rw [v6Loop] at heq
    exact absurd heq (by simp)
  | succ fuel ih =>
    intro s acc ell bytes ell' rem hmem hev hle hellle heq
    rw [v6Loop] at heq
    by_cases h16 : 16 ≤ acc.length
    · rw [if_pos h16] at heq
      injection heq with heq
      injection heq with h1 heq
      injection heq with h2 h3
      subst h1
      subst h2
      exact ⟨hmem, hev, hle, hellle⟩
    · rw [if_neg h16] at heq
      simp only at heq
      split at heq
      · exact absurd heq (by simp)
      · split at heq
        · exact absurd heq (by simp)
        · rename_i hds0 hds4
          have hhex : hexAcc (s.takeWhile isHexDigitGo) < 65536 :=
            hexAcc_lt _ (by omega)
          have hmem2 : ∀ x ∈ acc ++ [hexAcc (s.takeWhile isHexDigitGo) / 256,
              hexAcc (s.takeWhile isHexDigitGo) % 256], x < 256 := by
            intro x hx
            rcases List.mem_append.mp hx with hx | hx
            · exact hmem x hx
            · simp at hx
              omega
          have hlen2 : (acc ++ [hexAcc (s.takeWhile isHexDigitGo) / 256,
              hexAcc (s.takeWhile isHexDigitGo) % 256]).length = acc.length + 2 := by
            simp
          split at heq
          · -- embedded v4 branch
            split at heq
            · exact absurd heq (by simp)
            · split at heq
              · exact absurd heq (by simp)
              · rename_i hellok hroom
                split at heq
                · exact absurd heq (by simp)
                · rename_i w hpw
                  injection heq with heq
                  injection heq with h1 heq
                  injection heq with h2 h3
                  subst h1
                  subst h2
                  refine ⟨?_, ?_, ?_, ?_⟩
                  · intro x hx
                    rcases List.mem_append.mp hx with hx | hx
                    · exact hmem x hx
                    · exact beBytes_lt 4 w x hx
                  · rw [List.length_append, beBytes_length]
                    omega
                  · rw [List.length_append, beBytes_length]
                    omega
                  · intro q hq
                    rw [List.length_append, beBytes_length]
                    have := hellle q hq
                    omega
          · -- plain hextet branches
            split at heq
            · -- rest empty: stop
              injection heq with heq
              injection heq with h1 heq
              injection heq with h2 h3
              subst h1
              subst h2
              refine ⟨hmem2, by rw [hlen2]; omega, by rw [hlen2]; omega, ?_⟩
              intro q hq
              rw [hlen2]
              have := hellle q hq
              omega
            · split at heq
              · exact absurd heq (by simp)
              · -- double colon
                split at heq
                · exact absurd heq (by simp)
                · split at heq
                  · -- ends right after the double colon
                    injection heq with heq
                    injection heq with h1 heq
                    injection heq with h2 h3
                    subst h1
                    subst h2
                    refine ⟨hmem2, by rw [hlen2]; omega, by rw [hlen2]; omega, ?_⟩
                    intro q hq
                    injection hq with hq
                    omega
                  · -- continue after the double colon
                    refine ih _ _ _ _ _ _ hmem2 (by rw [hlen2]; omega)
                      (by rw [hlen2]; omega) ?_ heq
                    intro q hq
                    injection hq with hq
                    omega
              · -- single colon, next group
                refine ih _ _ _ _ _ _ hmem2 (by rw [hlen2]; omega)
                  (by rw [hlen2]; omega) ?_ heq
                intro q hq
                rw [hlen2]
                have := hellle q hq
                omega
            · exact absurd heq (by simp)

theorem v6Finish_lt (bytes : List Nat) (ell : Option Nat) (rem : List Char) (w : Nat)
    (hmem : ∀ x ∈ bytes, x < 256) (hev : bytes.length % 2 = 0) (hle : bytes.length ≤ 16)
    (hell : ∀ q, ell = some q → q ≤ bytes.length)
    (h : v6Finish (some (bytes, ell, rem)) = some w) : w < 2 ^ 128 := by
  cases ell with
  | some q =>
    have hqle := hell q rfl
    simp only [v6Finish, Option.isSome_some, if_true] at h
    split at h
    · exact absurd h (by simp)
    · split at h
      · injection h with h
        subst h
        have hmem2 : ∀ x ∈ bytes.take q ++ List.replicate (16 - bytes.length) 0 ++
            bytes.drop q, x < 256 := by
          intro x hx
          rcases List.mem_append.mp hx with hx | hx
          · rcases List.mem_append.mp hx with hx | hx
            · exact hmem x (List.mem_of_mem_take hx)
            · have := List.eq_of_mem_replicate hx
              omega
          · exact hmem x (List.mem_of_mem_drop hx)
        have hlen : (bytes.take q ++ List.replicate (16 - bytes.length) 0 ++
            bytes.drop q).length = 16 := by
          simp only [List.length_append, List.length_take, List.length_replicate,
            List.length_drop]
          omega
        have := bytesToNat_lt _ hmem2
        rw [hlen] at this
        norm_num at this ⊢
        omega
      · exact absurd h (by simp)
  | none =>
    simp only [v6Finish, Option.isSome_none, if_false, Bool.false_eq_true] at h
    split at h
    · exact absurd h (by simp)
    · split at h
      · exact absurd h (by simp)
      · rename_i hlt
        injection h with h
        subst h
        have := bytesToNat_lt bytes hmem
        have hl16 : bytes.length = 16 := by omega
        rw [hl16] at this
        norm_num at this ⊢
        omega

theorem parseIPv6_lt (s : List Char) (w : Nat) (h : parseIPv6 s = some w) : w < 2 ^ 128 := by
  rw [parseIPv6] at h
  split at h
  · exact absurd h (by simp)
  · split at h
    · split at h
      · injection h with h
        subst h
        norm_num
      · cases hv : v6Loop 17 (s.drop 2) [] (some 0) with
        | none => rw [hv] at h; exact absurd h (by simp [v6Finish])
        | some out =>
          obtain ⟨bytes, ell', rem⟩ := out
          obtain ⟨hm, he, hl, hq⟩ := v6Loop_bound 17 (s.drop 2) [] (some 0) bytes ell' rem
            (by simp) (by simp) (by simp) (by intro q hq; injection hq with hq; omega) hv
          rw [hv] at h
          exact v6Finish_lt bytes ell' rem w hm he hl hq h
    · cases hv : v6Loop 17 s [] none with
      | none => rw [hv] at h; exact absurd h (by simp [v6Finish])
      | some out =>
        obtain ⟨bytes, ell', rem⟩ := out
        obtain ⟨hm, he, hl, hq⟩ := v6Loop_bound 17 s [] none bytes ell' rem
          (by simp) (by simp) (by simp) (by intro q hq; exact absurd hq (by simp)) hv
        rw [hv] at h
        exact v6Finish_lt bytes ell' rem w hm he hl hq h

theorem parseAddrGo_wf (s : List Char) (a : Addr) (h : parseAddrGo s = some a) : a.wf := by
  rw [parseAddrGo] at h
  split at h
  · cases hp : parseIPv4 s with
    | none => rw [hp] at h; exact absurd h (by simp)
    | some w =>
      rw [hp] at h
      injection h with h
      subst h
      exact parseIPv4_lt s w hp
  · cases hp : parseIPv6 s with
    | none => rw [hp] at h; exact absurd h (by simp)
    | some w =>
      rw [hp] at h
      injection h with h
      subst h
      exact parseIPv6_lt s w hp
  · exact absurd h (by simp)

theorem parsePfx_wf (s : List Char) (p : Pfx) (h : parsePfx s = some p) : p.wf := by
  rw [parsePfx] at h
  split at h
  · exact absurd h (by simp)
  · rename_i i hi
    rw [parsePfxAt] at h
    split at h
    · exact absurd h (by simp)
    · rename_i ip hip
      split at h
      · exact absurd h (by simp)
      · rename_i bits hbits
        split at h
        · exact absurd h (by simp)
        · rename_i hwidth
          injection h with h
          subst h
          exact ⟨parseAddrGo_wf _ ip hip, show bits ≤ ip.bitWidth by omega⟩

theorem parsePfxStr_wf (s : String) (p : Pfx) (h : parsePfxStr s = some p) : p.wf :=
  parsePfx_wf s.data p h

theorem parsePfxStr_str (p : Pfx) (hwf : p.wf) : parsePfxStr p.str = some p :=
  parsePfx_pfxChars p hwf

theorem derivedCols_head (ipRange intRange hexRange : Bool) (p : Pfx) (t : List String) :
    (derivedCols true ipRange intRange hexRange p ++ t).headD "" = p.str := by
  simp [derivedCols]

/-- C8: with the cidr flag set, converting an already-converted output a
second time with the same flags succeeds, and the derived columns of every
data row of the second output are identical to those of the first output
(the new leading column is the network column of the second input). -/
theorem C8_idempotent (ipRange intRange hexRange : Bool)
    (header : List String) (rows : List (List String))
    (hlen : ∀ row ∈ rows, row.length = header.length)
    (hparse : ∀ row ∈ rows, (parsePfxStr (row.headD "")).isSome) :
    (Convert true ipRange intRange hexRange
        (Convert true ipRange intRange hexRange (header :: rows)).1).2 = none ∧
    ((Convert true ipRange intRange hexRange
        (Convert true ipRange intRange hexRange (header :: rows)).1).1.drop 1).map
        (List.take (derivedHeaderCols true ipRange intRange hexRange).length) =
      ((Convert true ipRange intRange hexRange (header :: rows)).1.drop 1).map
        (List.take (derivedHeaderCols true ipRange intRange hexRange).length) := by
  have h1 := convert_layout true ipRange intRange hexRange header rows hlen hparse
  rw [h1]
  have hlen1 : ∀ r ∈ rows.map (fun row =>
      derivedCols true ipRange intRange hexRange
        ((parsePfxStr (row.headD "")).getD (Pfx.mk (Addr.v4 0) 0)) ++ row.drop 1),
      r.length =
        (derivedHeaderCols true ipRange intRange hexRange ++ header.drop 1).length := by
    intro r hr
    obtain ⟨row, hrow, rfl⟩ := List.mem_map.mp hr
    rw [List.length_append, List.length_append, derivedCols_length,
      List.length_drop, List.length_drop, hlen row hrow]
  have hparse1 : ∀ r ∈ rows.map (fun row =>
      derivedCols true ipRange intRange hexRange
        ((parsePfxStr (row.headD "")).getD (Pfx.mk (Addr.v4 0) 0)) ++ row.drop 1),
      (parsePfxStr (r.headD "")).isSome := by
    intro r hr
    obtain ⟨row, hrow, rfl⟩ := List.mem_map.mp hr
    obtain ⟨p, hp⟩ := Option.isSome_iff_exists.mp (hparse row hrow)
    have hwf := parsePfxStr_wf _ p hp
    rw [derivedCols_head, hp, Option.getD_some, parsePfxStr_str p hwf]
    simp
  have h2 := convert_layout true ipRange intRange hexRange _ _ hlen1 hparse1
  rw [h2]
  refine ⟨rfl, ?_⟩
  simp only [List.drop_succ_cons, List.drop_zero, List.map_map]
  apply List.map_congr_left
  intro row hrow
  obtain ⟨p, hp⟩ := Option.isSome_iff_exists.mp (hparse row hrow)
  have hwf := parsePfxStr_wf _ p hp
  simp only [Function.comp_apply, hp, Option.getD_some, derivedCols_head,
    parsePfxStr_str p hwf]
  rw [List.take_left' (derivedCols_length true ipRange intRange hexRange p),
    List.take_left' (derivedCols_length true ipRange intRange hexRange p)]

/-- C8 witness: a one-row table converted twice with cidr and ipRange. -/
theorem C8_idempotent_witness :
    (Convert true true false false
        (Convert true true false false
          [["network", "city"], ["1.1.1.0/24", "X"]]).1).2 = none ∧
    ((Convert true true false false
        (Convert true true false false
          [["network", "city"], ["1.1.1.0/24", "X"]]).1).1.drop 1).map
        (List.take (derivedHeaderCols true true false false).length) =
      ((Convert true true false false
          [["network", "city"], ["1.1.1.0/24", "X"]]).1.drop 1).map
        (List.take (derivedHeaderCols true true false false).length) :=
  C8_idempotent true false false ["network", "city"] [["1.1.1.0/24", "X"]]
    (by decide) (by decide)

end GeoipConv
